import Mathlib

/-!
Verification of the chunk storage and meshing subsystem of the `constructors`
voxel renderer (`src/render/chunk.rs`), shallowly embedded in Lean 4.

Embedding conventions:
* `usize` block coordinates become `Nat`; `i32` chunk-grid coordinates become `Int`.
* The meshing loop in the source walks `f32` coordinates holding small integral
  values (`-1.0 .. 16.0`); they are embedded as exact integers (`Int` for the
  sweep plane, which starts at `-1`, and `Nat` for the in-plane coordinates).
* The camera position (`f32` vector) is embedded as exact rationals; the sign
  test `f32::is_sign_positive` becomes `0 ≤ p` (positive zero is non-negative).
* `HashMap<ChunkPosition, Chunk>` becomes an association list, `HashSet` a list
  whose insert operation refuses duplicates; lookup/contains/remove are keyed
  by decidable equality exactly as the hash map is.
* The GPU device collaborator is modelled per spec §6 as an upload that turns a
  vertex list and an index list into a buffer handle retaining that data.
* Rust mutation (`&mut self`) becomes explicit state passing: each method
  returns the updated structure.
* The `mask` array of `greedy_mesh` (`[bool; 256]`, rebuilt from scratch for
  every sweep plane and only ever read through in-bounds indices) is embedded
  as a total function `Nat → Bool`; clearing a merged rectangle becomes a
  functional override of the cleared index range.
* Each `while` loop of `greedy_mesh` is embedded with an explicit countdown
  argument equal to the exact number of steps remaining before the loop bound
  (`16` or `17`); the loop variable strictly increases each iteration, so the
  countdown reaches zero exactly when the loop condition fails.
-/

/-- `CHUNK_SIZE`: the chunk edge length `S = 16`. -/
def CHUNK_SIZE : Nat := 16

/-- `CHUNK_3D_SIZE = CHUNK_SIZE³`. -/
def CHUNK_3D_SIZE : Nat := CHUNK_SIZE * CHUNK_SIZE * CHUNK_SIZE

/-- `MAX_REBUILD_FRAME`: per-call cap on remeshed chunks in `rebuild_chunks`. -/
def MAX_REBUILD_FRAME : Nat := 2

/-- Modelled from the spec: the `Block` type used by `chunk.rs` is not under
`src/` (the `block.rs` present there is an earlier, unrelated geometry helper).
Spec §3: "Block — identity (opaque numeric id) + `is_active: bool`.
Trivially copyable value type." -/
structure Block where
  id : Nat
  is_active : Bool
  deriving DecidableEq, Repr

/-- Modelled from the spec: `Block::new` is not under `src/`.  World
initialization (spec §3 lifecycle) creates chunks "fully populated with
active blocks", so a freshly created block is active. -/
def Block.new (id : Nat) : Block := ⟨id, true⟩

/-- One mesh vertex: position, flat color, face normal (spec §4.1).
Coordinates are integral in this subsystem, so they are embedded as `Int`. -/
structure BlockVertex where
  position : Int × Int × Int
  color : Int × Int × Int
  normal : Int × Int × Int
  deriving DecidableEq, Repr

/-- Modelled from the spec: the flat color Block::quad assigns to every vertex
of a quad (spec §4.1 leaves its value unspecified). -/
def quadColor : Int × Int × Int := (0, 0, 0)

/-- Componentwise addition of integer triples. -/
def addT (a b : Int × Int × Int) : Int × Int × Int :=
  (a.1 + b.1, a.2.1 + b.2.1, a.2.2 + b.2.2)

/-- Modelled from the spec: `Block::quad` is not under `src/`.  Spec §4.1:
"`Block.quad(width_vector, height_vector, origin_position, normal)` produces
4 vertices (a parallelogram spanning `width` and `height` from `origin`) and a
fixed 6-index fan (`[0,3,2,2,1,0]`) triangulating it into two triangles.  Each
vertex carries position, a flat color, and the face normal.  Guarantee: output
vertex count is always exactly 4 per call, index count exactly 6." -/
def Block.quad (du dv pos q : Int × Int × Int) : List BlockVertex × List Nat :=
  ( [ ⟨pos, quadColor, q⟩
    , ⟨addT pos du, quadColor, q⟩
    , ⟨addT (addT pos du) dv, quadColor, q⟩
    , ⟨addT pos dv, quadColor, q⟩ ]
  , [0, 3, 2, 2, 1, 0] )

/-- `ChunkMesh`: the cached geometry of a chunk.  The wgpu buffers are
modelled per spec §6 as handles retaining the uploaded vertex/index data. -/
structure ChunkMesh where
  vertex_buffer : List BlockVertex
  index_buffer : List Nat
  num_elements : Nat
  deriving DecidableEq, Repr

/-- `ChunkPosition = Vector3<i32>`. -/
abbrev ChunkPosition := Int × Int × Int

/-- `Chunk`: id, grid position, `is_active` flag, `S³` optional block slots
(flattened array embedded as a total function on `Fin 4096`), cached mesh. -/
structure Chunk where
  id : Nat
  position : ChunkPosition
  is_active : Bool
  blocks : Fin 4096 → Option Block
  mesh : Option ChunkMesh

/-- `Chunk::new`: every slot empty. -/
def Chunk.new (id : Nat) (position : ChunkPosition) : Chunk :=
  ⟨id, position, false, fun _ => none, none⟩

/-- `Chunk::full`: every slot holds `Block::new(0)`. -/
def Chunk.full (id : Nat) (position : ChunkPosition) : Chunk :=
  ⟨id, position, false, fun _ => some (Block.new 0), none⟩

/-- `Chunk::insert_block` (`chunk.rs:320`): in range (`x,y,z ≤ 15`) and slot
at `(x·16 + y)·16 + z` empty → set the slot; otherwise leave the chunk as is. -/
def Chunk.insert_block (c : Chunk) (b : Block) (x y z : Nat) : Chunk :=
  if h : x ≤ CHUNK_SIZE - 1 ∧ y ≤ CHUNK_SIZE - 1 ∧ z ≤ CHUNK_SIZE - 1 then
    let index : Fin 4096 := ⟨(x * CHUNK_SIZE + y) * CHUNK_SIZE + z, by
      obtain ⟨h1, h2, h3⟩ := h; simp only [CHUNK_SIZE] at *; omega⟩
    if c.blocks index = none then
      { c with blocks := fun i => if i = index then some b else c.blocks i }
    else c
  else c

/-- `Chunk::remove_block` (`chunk.rs:334`): clear an in-range occupied slot. -/
def Chunk.remove_block (c : Chunk) (x y z : Nat) : Chunk :=
  if h : x ≤ CHUNK_SIZE - 1 ∧ y ≤ CHUNK_SIZE - 1 ∧ z ≤ CHUNK_SIZE - 1 then
    let index : Fin 4096 := ⟨(x * CHUNK_SIZE + y) * CHUNK_SIZE + z, by
      obtain ⟨h1, h2, h3⟩ := h; simp only [CHUNK_SIZE] at *; omega⟩
    if (c.blocks index).isSome then
      { c with blocks := fun i => if i = index then none else c.blocks i }
    else c
  else c

/-- `Chunk::block_active` (`chunk.rs:348`): the slot's active flag for an
in-range occupied slot, `false` otherwise. -/
def Chunk.block_active (c : Chunk) (x y z : Nat) : Bool :=
  if h : x ≤ CHUNK_SIZE - 1 ∧ y ≤ CHUNK_SIZE - 1 ∧ z ≤ CHUNK_SIZE - 1 then
    match c.blocks ⟨(x * CHUNK_SIZE + y) * CHUNK_SIZE + z, by
      obtain ⟨h1, h2, h3⟩ := h; simp only [CHUNK_SIZE] at *; omega⟩ with
    | some b => b.is_active
    | none => false
  else false

/-! ### The greedy mesher (`Chunk::greedy_mesh`, `chunk.rs:184`)

The sweep works per axis `d ∈ {0,1,2}` with `u = (d+1) % 3`, `v = (d+2) % 3`.
`axisVec d sd i j` is the coordinate triple `x` with `x[d] = sd`, `x[u] = i`,
`x[v] = j`. -/

/-- Coordinate triple from per-axis components (`x[d] = sd, x[u] = i, x[v] = j`). -/
def axisVec (d : Nat) (sd i j : Nat) : Nat × Nat × Nat :=
  match d with
  | 0 => (sd, i, j)
  | 1 => (j, sd, i)
  | _ => (i, j, sd)

/-- Occupancy sample along a sweep axis. -/
def occAt (occ : Nat → Nat → Nat → Bool) (d sd i j : Nat) : Bool :=
  let p := axisVec d sd i j
  occ p.1 p.2.1 p.2.2

/-- One mask cell (`chunk.rs:209-226`): `block_current != block_compare`,
where the sample at sweep plane `s = -1` is forced `false` (`0.0 <= x[d]`
guard) and the compare sample is forced `false` once `x[d] ≥ S - 1`. -/
def maskCell (occ : Nat → Nat → Nat → Bool) (d : Nat) (s : Int) (i j : Nat) : Bool :=
  (if 0 ≤ s then occAt occ d s.toNat i j else false)
    != (if s < (CHUNK_SIZE : Int) - 1 then occAt occ d (s + 1).toNat i j else false)

/-- The full `S×S` mask of one sweep plane, indexed by `n = j·16 + i`
(`n` increments in lockstep with `x[u]` inside the `x[v]` loop). -/
def sliceMask (occ : Nat → Nat → Nat → Bool) (d : Nat) (s : Int) : Nat → Bool :=
  fun n => maskCell occ d s (n % 16) (n / 16)

/-- Width loop (`chunk.rs:242-245`): `while (i+w) < 16 && mask[n+w] { w += 1 }`.
The countdown argument is `16 - (i + w)`, zero exactly when `i + w ≥ 16`. -/
def quadWidthAux (mask : Nat → Bool) (n : Nat) : Nat → Nat → Nat
  | w, 0 => w
  | w, rem + 1 => if mask (n + w) then quadWidthAux mask n (w + 1) rem else w

/-- Width of the greedy rectangle starting at column `i`, mask index `n`. -/
def quadWidth (mask : Nat → Bool) (n i : Nat) : Nat :=
  quadWidthAux mask n 1 (16 - (i + 1))

/-- `chunk.rs:249-253`: whether row `h` above the rectangle start is all set
across the current width (the source breaks out at the first unset cell). -/
def rowFull (mask : Nat → Bool) (n w h : Nat) : Bool :=
  (List.range w).all fun k => mask (n + k + h * 16)

/-- Height loop (`chunk.rs:247-255`): grow `h` while `(j+h) < 16` and the next
row is fully set across width `w`.  Countdown is `16 - (j + h)`. -/
def quadHeightAux (mask : Nat → Bool) (n w : Nat) : Nat → Nat → Nat
  | h, 0 => h
  | h, rem + 1 => if rowFull mask n w h then quadHeightAux mask n w (h + 1) rem else h

/-- Height of the greedy rectangle at row `j`, width `w`, mask index `n`. -/
def quadHeight (mask : Nat → Bool) (n w j : Nat) : Nat :=
  quadHeightAux mask n w 1 (16 - (j + 1))

/-- Clearing the merged rectangle (`chunk.rs:284-288`):
`mask[n + k + l*16] = false` for all `k < w`, `l < h`. -/
def clearRect (mask : Nat → Bool) (n w h : Nat) : Nat → Bool := fun m =>
  if (List.range h).any (fun l => (List.range w).any fun k => m = n + k + l * 16)
  then false else mask m

/-- The data of one emitted quad, before the chunk-to-world translation:
`Block::quad` call arguments `du`, `dv`, local origin `x`, normal `q`. -/
structure QuadSpec where
  du : Int × Int × Int
  dv : Int × Int × Int
  pos : Int × Int × Int
  q : Int × Int × Int
  deriving DecidableEq, Repr

/-- Natural triple as integer triple. -/
def natT3 (p : Nat × Nat × Nat) : Int × Int × Int := (p.1, p.2.1, p.2.2)

/-- The quad emitted at plane `x[d] = plane`, origin `(x[u], x[v]) = (i, j)`,
extents `du[u] = w`, `dv[v] = h`, normal `q[d] = 1` (`chunk.rs:257-275`). -/
def mkQuad (d plane i j w h : Nat) : QuadSpec :=
  { du := natT3 (axisVec d 0 w 0)
  , dv := natT3 (axisVec d 0 0 h)
  , pos := natT3 (axisVec d plane i j)
  , q := natT3 (axisVec d 1 0 0) }

/-- Scan of one mask row (`chunk.rs:239-296`): starting at column `i`, mask
index `n`, emit greedy rectangles until `i ≥ 16`.  Returns the quads in
emission order, the mutated mask, and the final `n`.  The countdown starts at
`16`; `i` strictly increases each step, so the countdown reaching zero
coincides with `i ≥ 16`. -/
def scanRowAux (d plane j : Nat) :
    Nat → (Nat → Bool) → Nat → Nat → List QuadSpec × (Nat → Bool) × Nat
  | 0, mask, _, n => ([], mask, n)
  | fuel + 1, mask, i, n =>
    if i < 16 then
      if mask n then
        let w := quadWidth mask n i
        let h := quadHeight mask n w j
        let quad := mkQuad d plane i j w h
        let cleared := clearRect mask n w h
        let rest := scanRowAux d plane j fuel cleared (i + w) (n + w)
        (quad :: rest.1, rest.2.1, rest.2.2)
      else scanRowAux d plane j fuel mask (i + 1) (n + 1)
    else ([], mask, n)

/-- Scan of one mask row from its left edge. -/
def scanRow (mask : Nat → Bool) (d plane j n : Nat) :
    List QuadSpec × (Nat → Bool) × Nat :=
  scanRowAux d plane j 16 mask 0 n

/-- The row loop `for j in 0..CHUNK_SIZE` (`chunk.rs:237`), threading the
mask and the running index `n` (reset to `0` before the loop). -/
def scanRowsAux (d plane : Nat) :
    Nat → (Nat → Bool) → Nat → Nat → List QuadSpec × (Nat → Bool)
  | 0, mask, _, _ => ([], mask)
  | fuel + 1, mask, j, n =>
    if j < 16 then
      let row := scanRow mask d plane j n
      let rest := scanRowsAux d plane fuel row.2.1 (j + 1) row.2.2
      (row.1 ++ rest.1, rest.2)
    else ([], mask)

/-- Greedy merge of a whole plane mask into quads. -/
def scanRows (mask : Nat → Bool) (d plane : Nat) : List QuadSpec × (Nat → Bool) :=
  scanRowsAux d plane 16 mask 0 0

/-- The sweep-plane loop (`chunk.rs:201-233`): `x[d]` runs from `-1` while
`x[d] < 16`; the mask is computed at plane `s`, then `x[d]` is incremented, so
the emitted quads sit at plane `s + 1`.  17 iterations total. -/
def sweepAux (occ : Nat → Nat → Nat → Bool) (d : Nat) :
    Nat → Int → List QuadSpec
  | 0, _ => []
  | fuel + 1, s =>
    if s < (CHUNK_SIZE : Int) then
      (scanRows (sliceMask occ d s) d (s + 1).toNat).1 ++ sweepAux occ d fuel (s + 1)
    else []

/-- All quads of one sweep axis. -/
def sweepAxis (occ : Nat → Nat → Nat → Bool) (d : Nat) : List QuadSpec :=
  sweepAux occ d 17 (-1)

/-- All quads of the three sweep axes (`for d in 0..3`, `chunk.rs:190`). -/
def greedyQuads (occ : Nat → Nat → Nat → Bool) : List QuadSpec :=
  sweepAxis occ 0 ++ sweepAxis occ 1 ++ sweepAxis occ 2

/-- The quads `Chunk::greedy_mesh` emits for a chunk, in emission order;
occupancy is sampled through `block_active` (`chunk.rs:210,215`). -/
def Chunk.meshQuads (c : Chunk) : List QuadSpec :=
  greedyQuads fun x y z => c.block_active x y z

/-- Chunk-to-world translation of a quad origin
(`chunk_pos = position * 16`, `x as i32 + chunk_pos`, `chunk.rs:265-273`). -/
def worldQuadPos (cp : ChunkPosition) (lp : Int × Int × Int) : Int × Int × Int :=
  (lp.1 + 16 * cp.1, lp.2.1 + 16 * cp.2.1, lp.2.2 + 16 * cp.2.2)

/-- The vertex list `greedy_mesh` accumulates: 4 vertices per quad
(`vertices.append(&mut quad.0)`, `chunk.rs:277`). -/
def Chunk.meshVertices (c : Chunk) : List BlockVertex :=
  c.meshQuads.flatMap fun qd =>
    (Block.quad qd.du qd.dv (worldQuadPos c.position qd.pos) qd.q).1

/-- The index list `greedy_mesh` accumulates: each quad's 6-index fan shifted
by the running `offset`, which grows by 4 per quad (`chunk.rs:278-282`), so
quad number `k` is shifted by `4·k`. -/
def Chunk.meshIndices (c : Chunk) : List Nat :=
  c.meshQuads.enum.flatMap fun kq =>
    (Block.quad kq.2.du kq.2.dv (worldQuadPos c.position kq.2.pos) kq.2.q).2.map
      fun ix => ix + 4 * kq.1

/-- `Chunk::greedy_mesh` (`chunk.rs:184-318`): run the sweep, set
`is_active := true`, upload the geometry when both lists are non-empty
(`num_elements = indices.len()`), otherwise clear the mesh. -/
def Chunk.greedy_mesh (c : Chunk) : Chunk :=
  { c with
    is_active := true
    mesh :=
      if c.meshVertices ≠ [] ∧ c.meshIndices ≠ [] then
        some ⟨c.meshVertices, c.meshIndices, c.meshIndices.length⟩
      else none }

/-! ### ChunkManager (`chunk.rs:13-157`) -/

/-- `HashMap::get` on the association list of chunks. -/
def lookupPos : List (ChunkPosition × Chunk) → ChunkPosition → Option Chunk
  | [], _ => none
  | (k, c) :: rest, p => if k = p then some c else lookupPos rest p

/-- `HashMap::contains_key`. -/
def containsKey (l : List (ChunkPosition × Chunk)) (p : ChunkPosition) : Bool :=
  (lookupPos l p).isSome

/-- `HashMap::insert` at a key known to be absent / update at a present key. -/
def updateChunks (l : List (ChunkPosition × Chunk)) (p : ChunkPosition) (c : Chunk) :
    List (ChunkPosition × Chunk) :=
  l.map fun kc => if kc.1 = p then (kc.1, c) else kc

/-- `HashSet::insert`: membership-checked (a set never holds duplicates). -/
def insertPos (s : List ChunkPosition) (p : ChunkPosition) : List ChunkPosition :=
  if p ∈ s then s else p :: s

/-- `HashSet::remove`. -/
def removePos (s : List ChunkPosition) (p : ChunkPosition) : List ChunkPosition :=
  s.erase p

/-- `ChunkManager` (`chunk.rs:13-24`). -/
structure ChunkManager where
  chunks : List (ChunkPosition × Chunk)
  rebuild : List ChunkPosition
  render : List ChunkPosition
  render_dist : Nat
  old_chunk_pos : Option ChunkPosition

/-- `ChunkManager::new` (`chunk.rs:41`). -/
def ChunkManager.new (chunks : List (ChunkPosition × Chunk)) : ChunkManager :=
  ⟨chunks, [], [], 2, none⟩

/-- `ChunkManager::add_chunk` (`chunk.rs:142`): no-op when the position is
already a key ("Prevent overwriting"), otherwise insert. -/
def ChunkManager.add_chunk (m : ChunkManager) (c : Chunk) : ChunkManager :=
  if containsKey m.chunks c.position then m
  else { m with chunks := (c.position, c) :: m.chunks }

/-- `ChunkManager::get_chunk` (`chunk.rs:151`). -/
def ChunkManager.get_chunk (m : ChunkManager) (p : ChunkPosition) : Option Chunk :=
  lookupPos m.chunks p

/-- The camera-to-chunk coordinate derivation (`chunk.rs:64-81`), on exact
rationals: `((p + 8) / 16).floor` / `((p - 8) / 16).ceil` horizontally by the
sign of `p`, `(p / 16).floor` / `(p / 16).ceil` vertically. -/
def cameraChunkPos (p : ℚ × ℚ × ℚ) : Int × Int × Int :=
  ( if 0 ≤ p.1 then ((p.1 + 8) / 16).floor else ((p.1 - 8) / 16).ceil
  , if 0 ≤ p.2.1 then (p.2.1 / 16).floor else (p.2.1 / 16).ceil
  , if 0 ≤ p.2.2 then ((p.2.2 + 8) / 16).floor else ((p.2.2 - 8) / 16).ceil )

/-- The half-open integer interval `lo..hi` of a Rust range loop. -/
def intRange (lo hi : Int) : List Int :=
  (List.range (hi - lo).toNat).map fun (k : Nat) => lo + (k : Int)

/-- The candidate positions visited on a streaming transition
(`chunk.rs:97-103`), in loop order: `x ∈ cx-rd .. cx+rd+1`,
`y ∈ max(cy-rd,0) .. cy+rd`, `z ∈ cz-rd .. cz+rd+1` (half-open ranges). -/
def cubePositions (c : Int × Int × Int) (rd : Int) : List ChunkPosition :=
  (intRange (c.1 - rd) (c.1 + rd + 1)).flatMap fun x =>
    (intRange (max (c.2.1 - rd) 0) (c.2.1 + rd)).flatMap fun y =>
      (intRange (c.2.2 - rd) (c.2.2 + rd + 1)).map fun z => (x, y, z)

/-- The previous frame's observer chunk coordinate (`chunk.rs:83-91`): the
stored value, or — on the first frame — the current one with `y - 1`
(guaranteed different, forcing a transition). -/
def oldPosOf (m : ChunkManager) (ccp : Int × Int × Int) : Int × Int × Int :=
  match m.old_chunk_pos with
  | some op => op
  | none => (ccp.1, ccp.2.1 - 1, ccp.2.2)

/-- The body of the transition loop (`chunk.rs:106-113`) for one candidate
position: an existing chunk without a mesh is inserted into the rebuild set
(first component), an existing chunk into the new render set (second). -/
def visitPos (chunks : List (ChunkPosition × Chunk))
    (acc : List ChunkPosition × List ChunkPosition) (pos : ChunkPosition) :
    List ChunkPosition × List ChunkPosition :=
  ( match lookupPos chunks pos with
    | some ch => if ch.mesh.isNone then insertPos acc.1 pos else acc.1
    | none => acc.1
  , if containsKey chunks pos then insertPos acc.2 pos else acc.2 )

/-- The streaming transition of `ChunkManager::update` (`chunk.rs:83-120`),
taking the already-derived observer chunk coordinate `ccp`: on transition walk
the candidate cube, marking existing mesh-less chunks for rebuild and
collecting existing chunks into a fresh render set that replaces the old one;
finally store the new coordinate. -/
def ChunkManager.updateAt (m : ChunkManager) (ccp : Int × Int × Int) :
    ChunkManager :=
  if oldPosOf m ccp ≠ ccp then
    let cube := cubePositions ccp (m.render_dist : Int)
    let acc := cube.foldl (visitPos m.chunks) (m.rebuild, ([] : List ChunkPosition))
    { m with rebuild := acc.1, render := acc.2, old_chunk_pos := some ccp }
  else { m with old_chunk_pos := some ccp }

/-- The streaming part of `ChunkManager::update` (`chunk.rs:63-120`): derive
the camera chunk coordinate (`chunk.rs:64-81`), then run the transition. -/
def ChunkManager.updateVisibility (m : ChunkManager) (camera : ℚ × ℚ × ℚ) :
    ChunkManager :=
  m.updateAt (cameraChunkPos camera)

/-- The loop of `ChunkManager::rebuild_chunks` (`chunk.rs:130-139`) over the
cloned position list: stop once `rebuilt ≥ MAX_REBUILD_FRAME`; a position with
a chunk is remeshed and counted; every visited position is removed from the
rebuild set either way. -/
def rebuildLoop : ChunkManager → List ChunkPosition → Nat → ChunkManager
  | m, [], _ => m
  | m, p :: rest, rebuilt =>
    if rebuilt ≥ MAX_REBUILD_FRAME then m
    else
      match lookupPos m.chunks p with
      | some ch =>
        rebuildLoop
          { m with chunks := updateChunks m.chunks p ch.greedy_mesh
                 , rebuild := removePos m.rebuild p }
          rest (rebuilt + 1)
      | none =>
        rebuildLoop { m with rebuild := removePos m.rebuild p } rest rebuilt

/-- `ChunkManager::rebuild_chunks` (`chunk.rs:125-140`). -/
def ChunkManager.rebuild_chunks (m : ChunkManager) : ChunkManager :=
  rebuildLoop m m.rebuild 0

/-- `ChunkManager::update` (`chunk.rs:63-123`): the streaming transition
followed by the throttled rebuild pass. -/
def ChunkManager.update (m : ChunkManager) (camera : ℚ × ℚ × ℚ) : ChunkManager :=
  (m.updateVisibility camera).rebuild_chunks

/-- `n`-fold iteration of `rebuild_chunks`. -/
def iterateRebuild : Nat → ChunkManager → ChunkManager
  | 0, m => m
  | n + 1, m => iterateRebuild n m.rebuild_chunks

/-! ### Occupancy functions and concrete fixtures used by the claims -/

/-- The occupancy function of a chunk every slot of which holds an active
block: in-range coordinates are occupied, everything else is air. -/
def fullOcc : Nat → Nat → Nat → Bool := fun x y z =>
  decide (x ≤ 15 ∧ y ≤ 15 ∧ z ≤ 15)

/-- The occupancy function of a chunk holding exactly one active block at the
in-range position `(px, py, pz)`. -/
def singleOcc (px py pz : Nat) : Nat → Nat → Nat → Bool := fun x y z =>
  decide ((x, y, z) = (px, py, pz))

/-- A block array holding exactly one block `b`, at the flattened index of
`(px, py, pz)`; every other slot is empty. -/
def singleBlocks (px py pz : Nat) (b : Block) : Fin 4096 → Option Block :=
  fun i => if i.val = (px * 16 + py) * 16 + pz then some b else none

/-- Component `d ∈ {0,1,2}` of a coordinate triple. -/
def pcomp : Nat → Nat × Nat × Nat → Nat
  | 0, p => p.1
  | 1, p => p.2.1
  | _, p => p.2.2

/-- A chunk whose only block is an active one at the origin slot. -/
def singleChunkW : Chunk :=
  ⟨0, (0, 0, 0), false, singleBlocks 0 0 0 (Block.new 0), none⟩

/-- A manager holding one meshless chunk at `(0, 2, 0)` — a position inside
the render distance (2) of the chunk coordinate `(0,0,0)` on every axis —
with a stored previous coordinate that forces a streaming transition. -/
def mC3 : ChunkManager :=
  ⟨[((0, 2, 0), Chunk.new 0 (0, 2, 0))], [], [], 2, some (9, 9, 9)⟩

/-- A manager holding one meshless chunk at the origin, mid-transition. -/
def mW3 : ChunkManager :=
  ⟨[((0, 0, 0), Chunk.new 0 (0, 0, 0))], [], [], 2, some (9, 9, 9)⟩

/-- A manager whose stored observer coordinate already matches a camera at
the origin (no streaming transition happens). -/
def mW1 : ChunkManager :=
  ⟨[((0, 0, 0), Chunk.new 0 (0, 0, 0))], [(5, 5, 5)], [(0, 0, 0)], 2,
    some (0, 0, 0)⟩

/-- A manager with three pending rebuild positions but no chunks at all. -/
def mC4 : ChunkManager :=
  ⟨[], [(0, 0, 0), (1, 0, 0), (2, 0, 0)], [], 2, none⟩

/-- A manager with three pending rebuild positions and chunks everywhere. -/
def mW4 : ChunkManager :=
  ⟨[((0, 0, 0), Chunk.new 0 (0, 0, 0)), ((1, 0, 0), Chunk.new 1 (1, 0, 0)),
    ((2, 0, 0), Chunk.new 2 (2, 0, 0))],
   [(0, 0, 0), (1, 0, 0), (2, 0, 0)], [], 2, none⟩

/-- A sequence of `add_chunk` calls, folded left like repeated method calls. -/
def addChunks (m : ChunkManager) (cs : List Chunk) : ChunkManager :=
  cs.foldl ChunkManager.add_chunk m

/-- The spec's sign-aware rounding rule (§4.4), stated from its words with
`S = 16`: "for non-negative components, `floor((p + S/2) / S)` on the
horizontal axes and `floor(p / S)` on the vertical axis; for negative
components, `ceil((p - S/2)/S)` horizontally and `ceil(p/S)` vertically". -/
def specChunkCoord (p : ℚ × ℚ × ℚ) : Int × Int × Int :=
  ( if 0 ≤ p.1 then Int.floor ((p.1 + 16 / 2) / 16) else Int.ceil ((p.1 - 16 / 2) / 16)
  , if 0 ≤ p.2.1 then Int.floor (p.2.1 / 16) else Int.ceil (p.2.1 / 16)
  , if 0 ≤ p.2.2 then Int.floor ((p.2.2 + 16 / 2) / 16) else Int.ceil ((p.2.2 - 16 / 2) / 16) )

/-! ## Theorems -/

/-- In-range coordinates give an in-bounds flattened index. -/
theorem idx_lt {x y z : Nat}
    (h : x ≤ CHUNK_SIZE - 1 ∧ y ≤ CHUNK_SIZE - 1 ∧ z ≤ CHUNK_SIZE - 1) :
    (x * CHUNK_SIZE + y) * CHUNK_SIZE + z < 4096 := by
  obtain ⟨h1, h2, h3⟩ := h; simp only [CHUNK_SIZE] at *; omega

/-- **C10.** `greedy_mesh` never modifies the chunk's block array or its
position (nor its id): only the `is_active` flag and the `mesh` field change. -/
theorem greedy_mesh_preserves_blocks_and_position (c : Chunk) :
    c.greedy_mesh.blocks = c.blocks ∧ c.greedy_mesh.position = c.position ∧
    c.greedy_mesh.id = c.id :=
  ⟨rfl, rfl, rfl⟩

/-- **C8.** After every call to `greedy_mesh` the chunk's `is_active` flag is
true, and `mesh` is `some` exactly when the generated vertex and index lists
are both non-empty, else it is cleared to `none`. -/
theorem greedy_mesh_active_and_mesh_presence (c : Chunk) :
    c.greedy_mesh.is_active = true ∧
    (c.greedy_mesh.mesh.isSome = true ↔ c.meshVertices ≠ [] ∧ c.meshIndices ≠ []) ∧
    (c.greedy_mesh.mesh = none ↔ ¬(c.meshVertices ≠ [] ∧ c.meshIndices ≠ [])) := by
  refine ⟨rfl, ?_, ?_⟩ <;>
    · unfold Chunk.greedy_mesh
      split <;> simp_all

/-- **C6.** `insert_block` is a no-op whenever a coordinate is out of range or
the slot at linear index `(x·S + y)·S + z` is occupied; otherwise it sets that
slot; after two inserts at the same in-range position the slot holds the block
from the first (successful) insert. -/
theorem insert_block_first_write_wins (c : Chunk) (b b' : Block) (x y z : Nat) :
    (¬(x ≤ CHUNK_SIZE - 1 ∧ y ≤ CHUNK_SIZE - 1 ∧ z ≤ CHUNK_SIZE - 1) →
        c.insert_block b x y z = c) ∧
    (∀ h : x ≤ CHUNK_SIZE - 1 ∧ y ≤ CHUNK_SIZE - 1 ∧ z ≤ CHUNK_SIZE - 1,
      (c.blocks ⟨(x * CHUNK_SIZE + y) * CHUNK_SIZE + z, idx_lt h⟩ ≠ none →
          c.insert_block b x y z = c) ∧
      (c.blocks ⟨(x * CHUNK_SIZE + y) * CHUNK_SIZE + z, idx_lt h⟩ = none →
          (c.insert_block b x y z).blocks
              ⟨(x * CHUNK_SIZE + y) * CHUNK_SIZE + z, idx_lt h⟩ = some b ∧
          ((c.insert_block b x y z).insert_block b' x y z).blocks
              ⟨(x * CHUNK_SIZE + y) * CHUNK_SIZE + z, idx_lt h⟩ = some b)) := by
  constructor
  · intro hnot
    unfold Chunk.insert_block
    rw [dif_neg hnot]
  · intro h
    refine ⟨?_, ?_⟩
    · intro hocc
      unfold Chunk.insert_block
      rw [dif_pos h, if_neg hocc]
    · intro hempty
      have h1 : (c.insert_block b x y z).blocks
          ⟨(x * CHUNK_SIZE + y) * CHUNK_SIZE + z, idx_lt h⟩ = some b := by
        unfold Chunk.insert_block
        rw [dif_pos h, if_pos hempty]
        simp
      refine ⟨h1, ?_⟩
      generalize hgen : c.insert_block b x y z = c1 at h1
      have hne : c1.blocks ⟨(x * CHUNK_SIZE + y) * CHUNK_SIZE + z, idx_lt h⟩ ≠ none := by
        rw [h1]; simp
      unfold Chunk.insert_block
      rw [dif_pos h, if_neg hne]
      exact h1

/-- **C7.** Out-of-range block operations are total no-ops: `insert_block`
and `remove_block` leave the chunk unchanged and `block_active` returns
`false` (out-of-range is air); in range, `block_active` returns the slot's
active flag (`false` for an empty slot).  All three are total functions in
this embedding — the flattened index is proved in bounds whenever the array
is read, so no panic is possible. -/
theorem block_ops_out_of_range_safe (c : Chunk) (b : Block) (x y z : Nat) :
    (16 ≤ x ∨ 16 ≤ y ∨ 16 ≤ z →
        c.insert_block b x y z = c ∧ c.remove_block x y z = c ∧
        c.block_active x y z = false) ∧
    (∀ h : x ≤ CHUNK_SIZE - 1 ∧ y ≤ CHUNK_SIZE - 1 ∧ z ≤ CHUNK_SIZE - 1,
        c.block_active x y z =
          match c.blocks ⟨(x * CHUNK_SIZE + y) * CHUNK_SIZE + z, idx_lt h⟩ with
          | some bl => bl.is_active
          | none => false) := by
  constructor
  · intro hor
    have hnot : ¬(x ≤ CHUNK_SIZE - 1 ∧ y ≤ CHUNK_SIZE - 1 ∧ z ≤ CHUNK_SIZE - 1) := by
      simp only [CHUNK_SIZE]; omega
    refine ⟨?_, ?_, ?_⟩
    · unfold Chunk.insert_block; rw [dif_neg hnot]
    · unfold Chunk.remove_block; rw [dif_neg hnot]
    · unfold Chunk.block_active; rw [dif_neg hnot]
  · intro h
    unfold Chunk.block_active
    rw [dif_pos h]

/-- `containsKey` is false exactly when the position is not among the keys. -/
theorem containsKey_eq_false_iff (l : List (ChunkPosition × Chunk)) (p : ChunkPosition) :
    containsKey l p = false ↔ p ∉ l.map Prod.fst := by
  induction l with
  | nil => simp [containsKey, lookupPos]
  | cons kc rest ih =>
    obtain ⟨k, c⟩ := kc
    by_cases hk : k = p
    · subst hk
      simp [containsKey, lookupPos]
    · simp only [containsKey, lookupPos, if_neg hk, List.map_cons, List.mem_cons]
      rw [containsKey] at ih
      rw [ih]
      constructor
      · rintro hnm (rfl | hm)
        · exact hk rfl
        · exact hnm hm
      · intro hnm hm
        exact hnm (Or.inr hm)

/-- `add_chunk` keeps the chunk keys duplicate-free. -/
theorem add_chunk_preserves_nodup (m : ChunkManager) (c : Chunk)
    (h : (m.chunks.map Prod.fst).Nodup) :
    ((m.add_chunk c).chunks.map Prod.fst).Nodup := by
  unfold ChunkManager.add_chunk
  split
  · exact h
  next hc =>
    simp only [List.map_cons]
    refine List.nodup_cons.mpr ⟨?_, h⟩
    exact (containsKey_eq_false_iff m.chunks c.position).mp
      (Bool.not_eq_true _ ▸ eq_false_of_ne_true hc)

/-- Any sequence of `add_chunk` calls keeps the chunk keys duplicate-free. -/
theorem addChunks_preserves_nodup (cs : List Chunk) :
    ∀ m : ChunkManager, (m.chunks.map Prod.fst).Nodup →
      ((addChunks m cs).chunks.map Prod.fst).Nodup := by
  induction cs with
  | nil => intro m h; exact h
  | cons c rest ih =>
    intro m h
    have : addChunks m (c :: rest) = addChunks (m.add_chunk c) rest := by
      simp [addChunks]
    rw [this]
    exact ih _ (add_chunk_preserves_nodup m c h)

/-- **C9.** `add_chunk` is a no-op when the position is already registered
(first registration wins), and after any sequence of `add_chunk` calls the
manager never holds two chunks under the same `ChunkPosition` key. -/
theorem add_chunk_first_registration_wins (m : ChunkManager) (c : Chunk)
    (cs : List Chunk) :
    (containsKey m.chunks c.position = true → m.add_chunk c = m) ∧
    ((m.chunks.map Prod.fst).Nodup →
        ((addChunks m cs).chunks.map Prod.fst).Nodup) := by
  constructor
  · intro hc
    unfold ChunkManager.add_chunk
    rw [if_pos hc]
  · exact addChunks_preserves_nodup cs m

/-- The computable `Rat.floor` agrees with the mathematical floor. -/
theorem intFloor_eq_ratFloor (q : ℚ) : Int.floor q = q.floor := by
  rw [Rat.floor_def, Rat.floor_def']

/-- Euclidean division of a negated non-multiple. -/
theorem neg_ediv_of_not_dvd {n d : ℤ} (hd : 0 < d) (hnd : ¬ d ∣ n) :
    (-n) / d = -(n / d) - 1 := by
  have h0 : d * (n / d) + n % d = n := Int.ediv_add_emod n d
  have h1 : 0 ≤ n % d := Int.emod_nonneg n (by omega)
  have h2 : n % d < d := Int.emod_lt_of_pos n hd
  have h3 : n % d ≠ 0 := fun h => hnd (Int.dvd_of_emod_eq_zero h)
  have key : -n = (d - n % d) + (-(n / d) - 1) * d := by linear_combination h0
  rw [key, Int.add_mul_ediv_right _ _ (by omega : d ≠ 0),
      Int.ediv_eq_zero_of_lt (by omega) (by omega)]
  ring

/-- The computable `Rat.ceil` agrees with the mathematical ceiling. -/
theorem intCeil_eq_ratCeil (q : ℚ) : Int.ceil q = q.ceil := by
  have hfl : Int.ceil q = -Int.floor (-q) := by rw [Int.floor_neg, neg_neg]
  rw [hfl, Rat.floor_def]
  show -((-q).num / ((-q).den : ℤ)) = q.ceil
  rw [Rat.neg_num, Rat.neg_den]
  unfold Rat.ceil
  by_cases hden : q.den = 1
  · simp [hden]
  · rw [if_neg hden]
    have hdvd : ¬ ((q.den : ℤ) ∣ q.num) := by
      intro hdvd
      have hred := q.reduced
      have hnat : q.den ∣ q.num.natAbs := by
        have h4 := Int.natAbs_dvd_natAbs.mpr hdvd
        simpa using h4
      have : q.den ∣ 1 := hred ▸ Nat.dvd_gcd hnat dvd_rfl
      exact hden (Nat.dvd_one.mp this)
    have hpos : (0 : ℤ) < (q.den : ℤ) := Int.natCast_pos.mpr q.den_pos
    rw [neg_ediv_of_not_dvd hpos hdvd]
    ring

/-! ### Characterizing the greedy sweep on full and single-block occupancy -/

/-- A fully active chunk's `block_active` is `fullOcc`. -/
theorem block_active_full (c : Chunk)
    (hall : ∀ i, ∃ b, c.blocks i = some b ∧ b.is_active = true) :
    (fun x y z => c.block_active x y z) = fullOcc := by
  funext x y z
  unfold Chunk.block_active fullOcc
  split
  next h =>
    obtain ⟨b, hb, hba⟩ := hall ⟨(x * CHUNK_SIZE + y) * CHUNK_SIZE + z, idx_lt h⟩
    rw [hb]
    show b.is_active = decide (x ≤ 15 ∧ y ≤ 15 ∧ z ≤ 15)
    rw [hba]
    simp only [CHUNK_SIZE] at h
    exact (decide_eq_true (by omega)).symm
  next h =>
    simp only [CHUNK_SIZE] at h
    exact (decide_eq_false (by omega)).symm

/-- A single-block chunk's `block_active` is `singleOcc`. -/
theorem block_active_single (c : Chunk) (px py pz : Nat) (b : Block)
    (hx : px ≤ 15) (hy : py ≤ 15) (hz : pz ≤ 15) (hb : b.is_active = true)
    (hc : c.blocks = singleBlocks px py pz b) :
    (fun x y z => c.block_active x y z) = singleOcc px py pz := by
  funext x y z
  unfold Chunk.block_active singleOcc
  rw [hc]
  unfold singleBlocks
  split
  next h =>
    simp only [CHUNK_SIZE] at h
    by_cases he : (x * 16 + y) * 16 + z = (px * 16 + py) * 16 + pz
    · have hxyz : x = px ∧ y = py ∧ z = pz := by omega
      obtain ⟨rfl, rfl, rfl⟩ := hxyz
      rw [if_pos (by simp [CHUNK_SIZE])]
      show b.is_active = decide ((x, y, z) = (x, y, z))
      rw [hb]
      exact (decide_eq_true rfl).symm
    · rw [if_neg (by simpa only [CHUNK_SIZE] using he)]
      show false = decide ((x, y, z) = (px, py, pz))
      refine (decide_eq_false fun hq => ?_).symm
      rw [Prod.mk.injEq, Prod.mk.injEq] at hq
      omega
  next h =>
    simp only [CHUNK_SIZE] at h
    refine (decide_eq_false fun hq => ?_).symm
    rw [Prod.mk.injEq, Prod.mk.injEq] at hq
    omega

/-- Every component of an in-range triple is in range. -/
theorem pcomp_le (k px py pz : Nat) (hx : px ≤ 15) (hy : py ≤ 15) (hz : pz ≤ 15) :
    pcomp k (px, py, pz) ≤ 15 := by
  match k with
  | 0 => exact hx
  | 1 => exact hy
  | (k + 2) => exact hz

/-- `occAt` on a single-block occupancy tests the three per-axis components. -/
theorem occAt_single (d : Nat) (hd : d < 3) (px py pz sd i j : Nat) :
    occAt (singleOcc px py pz) d sd i j =
      decide (sd = pcomp d (px, py, pz) ∧ i = pcomp ((d + 1) % 3) (px, py, pz) ∧
              j = pcomp ((d + 2) % 3) (px, py, pz)) := by
  rcases d with _ | _ | _ | d
  · simp only [occAt, axisVec, singleOcc, pcomp]
    rw [decide_eq_decide, Prod.mk.injEq, Prod.mk.injEq]
  · simp only [occAt, axisVec, singleOcc, pcomp]
    rw [decide_eq_decide, Prod.mk.injEq, Prod.mk.injEq]
    tauto
  · simp only [occAt, axisVec, singleOcc, pcomp]
    rw [decide_eq_decide, Prod.mk.injEq, Prod.mk.injEq]
    tauto
  · exact absurd hd (by omega)

/-- A guarded decide is a decide of a conjunction. -/
theorem if_decide_false (c : Prop) [Decidable c] (p : Prop) [Decidable p] :
    (if c then decide p else false) = decide (c ∧ p) := by
  by_cases hc : c <;> simp [hc]

/-- Boolean difference of two decides. -/
theorem bne_decide_decide (p q : Prop) [Decidable p] [Decidable q] :
    (decide p != decide q) = decide (¬(p ↔ q)) := by
  by_cases hp : p <;> by_cases hq : q <;> simp [hp, hq]

/-- The mask cell of a single-block occupancy: set exactly on the two planes
hugging the block, at the block's in-plane coordinates. -/
theorem maskCell_single (d : Nat) (hd : d < 3) (px py pz : Nat)
    (hx : px ≤ 15) (hy : py ≤ 15) (hz : pz ≤ 15) (s : Int) (hs : -1 ≤ s) (i j : Nat) :
    maskCell (singleOcc px py pz) d s i j =
      decide ((s = (pcomp d (px, py, pz) : Int) - 1 ∨ s = (pcomp d (px, py, pz) : Int)) ∧
              i = pcomp ((d + 1) % 3) (px, py, pz) ∧
              j = pcomp ((d + 2) % 3) (px, py, pz)) := by
  have hpd : pcomp d (px, py, pz) ≤ 15 := pcomp_le d px py pz hx hy hz
  unfold maskCell
  simp only [occAt_single d hd, CHUNK_SIZE, if_decide_false, bne_decide_decide]
  rw [decide_eq_decide]
  omega

/-- The plane mask of a single-block occupancy, as a function of the linear
index `n = j·16 + i`. -/
theorem sliceMask_single (d : Nat) (hd : d < 3) (px py pz : Nat)
    (hx : px ≤ 15) (hy : py ≤ 15) (hz : pz ≤ 15) (s : Int) (hs : -1 ≤ s) (n : Nat) :
    sliceMask (singleOcc px py pz) d s n =
      decide ((s = (pcomp d (px, py, pz) : Int) - 1 ∨ s = (pcomp d (px, py, pz) : Int)) ∧
              n = 16 * pcomp ((d + 2) % 3) (px, py, pz) +
                    pcomp ((d + 1) % 3) (px, py, pz)) := by
  have hpu : pcomp ((d + 1) % 3) (px, py, pz) ≤ 15 := pcomp_le _ px py pz hx hy hz
  have hpv : pcomp ((d + 2) % 3) (px, py, pz) ≤ 15 := pcomp_le _ px py pz hx hy hz
  unfold sliceMask
  rw [maskCell_single d hd px py pz hx hy hz s hs, decide_eq_decide]
  omega

/-- The width loop stops immediately when the next cell is unset. -/
theorem quadWidthAux_stop (mask : Nat → Bool) (n rem : Nat)
    (h : mask (n + 1) = false) : quadWidthAux mask n 1 rem = 1 := by
  cases rem with
  | zero => rfl
  | succ r => simp [quadWidthAux, h]

/-- The height loop stops immediately when the next row fails. -/
theorem quadHeightAux_stop (mask : Nat → Bool) (n w rem : Nat)
    (h : rowFull mask n w 1 = false) : quadHeightAux mask n w 1 rem = 1 := by
  cases rem with
  | zero => rfl
  | succ r => simp [quadHeightAux, h]

/-- Scanning a row whose remaining cells are all unset emits nothing, leaves
the mask untouched, and advances `n` by one per remaining column. -/
theorem scanRowAux_skip (d plane j : Nat) :
    ∀ (fuel i n : Nat) (mask : Nat → Bool), 16 - i ≤ fuel → i ≤ 16 →
      (∀ k, k < 16 - i → mask (n + k) = false) →
      scanRowAux d plane j fuel mask i n = ([], mask, n + (16 - i)) := by
  intro fuel
  induction fuel with
  | zero =>
    intro i n mask hf hi _
    have : i = 16 := by omega
    subst this
    simp [scanRowAux]
  | succ f ih =>
    intro i n mask hf hi hmask
    rw [scanRowAux]
    by_cases hlt : i < 16
    · rw [if_pos hlt]
      have h0 : mask n = false := by
        have := hmask 0 (by omega)
        simpa using this
      rw [h0]
      simp only [Bool.false_eq_true, if_false]
      have := ih (i + 1) (n + 1) mask (by omega) (by omega)
        (fun k hk => by
          have := hmask (k + 1) (by omega)
          simpa [Nat.add_assoc, Nat.add_comm 1 k] using this)
      rw [this]
      have : n + 1 + (16 - (i + 1)) = n + (16 - i) := by omega
      rw [this]
    · rw [if_neg hlt]
      have : i = 16 := by omega
      subst this
      simp

/-- Scanning the row containing the single set cell at column `iu` (cell index
`nb + iu`, scanning from column `i ≤ iu` at index `nb + i`) emits exactly one
`1×1` quad at `(iu, j)`, clears the mask completely, and ends at `nb + 16`. -/
theorem scanRowAux_single (d plane j iu nb : Nat) (hiu : iu ≤ 15) :
    ∀ (fuel i : Nat) (mask : Nat → Bool), 16 - i ≤ fuel → i ≤ iu →
      (∀ k, mask k = decide (k = nb + iu)) →
      (scanRowAux d plane j fuel mask i (nb + i)).1 = [mkQuad d plane iu j 1 1] ∧
      (∀ k, (scanRowAux d plane j fuel mask i (nb + i)).2.1 k = false) ∧
      (scanRowAux d plane j fuel mask i (nb + i)).2.2 = nb + 16 := by
  intro fuel
  induction fuel with
  | zero => intro i n hf hi _; omega
  | succ f ih =>
    intro i mask hf hi hm
    rw [scanRowAux]
    rw [if_pos (by omega : i < 16)]
    by_cases hhit : i = iu
    · subst hhit
      have hmn : mask (nb + i) = true := by rw [hm]; simp
      rw [hmn]
      simp only [if_true]
      have hw : quadWidth mask (nb + i) i = 1 :=
        quadWidthAux_stop mask (nb + i) _ (by
          rw [hm]
          exact decide_eq_false (by omega))
      have hrow : rowFull mask (nb + i) 1 1 = false := by
        simp only [rowFull, show List.range 1 = [0] from rfl, List.all_cons,
          List.all_nil, Bool.and_true]
        rw [hm]
        exact decide_eq_false (by omega)
      have hh : quadHeight mask (nb + i) 1 j = 1 :=
        quadHeightAux_stop mask (nb + i) 1 _ hrow
      rw [hw, hh]
      have hcl : ∀ k, clearRect mask (nb + i) 1 1 k = false := by
        intro k
        unfold clearRect
        split
        · rfl
        next hnot =>
          rw [hm]
          refine decide_eq_false fun hk => ?_
          subst hk
          exact hnot (by simp [show List.range 1 = [0] from rfl])
      have hrest := scanRowAux_skip d plane j f (i + 1) (nb + i + 1)
        (clearRect mask (nb + i) 1 1) (by omega) (by omega)
        (fun k _ => hcl (nb + i + 1 + k))
      rw [hrest]
      refine ⟨rfl, fun k => hcl k, ?_⟩
      show nb + i + 1 + (16 - (i + 1)) = nb + 16
      omega
    · have hmn : mask (nb + i) = false := by
        rw [hm]
        exact decide_eq_false (by omega)
      rw [hmn]
      simp only [Bool.false_eq_true, if_false]
      have hstep := ih (i + 1) mask (by omega) (by omega) hm
      have harg : nb + i + 1 = nb + (i + 1) := by omega
      rw [harg]
      exact hstep

/-- Scanning all rows of an everywhere-false mask emits nothing. -/
theorem scanRowsAux_allFalse (d plane : Nat) :
    ∀ (fuel : Nat) (mask : Nat → Bool) (j n : Nat),
      (∀ k, mask k = false) →
      scanRowsAux d plane fuel mask j n = ([], mask) := by
  intro fuel
  induction fuel with
  | zero => intro mask j n _; rfl
  | succ f ih =>
    intro mask j n hm
    rw [scanRowsAux]
    by_cases hj : j < 16
    · rw [if_pos hj, scanRow]
      rw [scanRowAux_skip d plane j 16 0 n mask (by omega) (by omega)
        (fun k _ => hm (n + k))]
      dsimp only
      rw [ih mask (j + 1) (n + (16 - 0)) hm]
      rfl
    · rw [if_neg hj]

/-- Scanning all rows of a mask holding exactly one set cell (at
`16·jv + iu`) emits exactly one `1×1` quad at `(iu, jv)` and (pointwise)
clears the mask. -/
theorem scanRowsAux_single (d plane iu jv : Nat) (hiu : iu ≤ 15) (hjv : jv ≤ 15)
    (mask : Nat → Bool) (hm : ∀ k, mask k = decide (k = 16 * jv + iu)) :
    ∀ (fuel j : Nat), j ≤ jv → 16 - j ≤ fuel →
      (scanRowsAux d plane fuel mask j (16 * j)).1 = [mkQuad d plane iu jv 1 1] ∧
      (∀ k, (scanRowsAux d plane fuel mask j (16 * j)).2 k = false) := by
  intro fuel
  induction fuel with
  | zero => intro j hj hf; omega
  | succ f ih =>
    intro j hj hf
    rw [scanRowsAux]
    rw [if_pos (by omega : j < 16), scanRow]
    by_cases hrow : j = jv
    · subst hrow
      have hsingle := scanRowAux_single d plane j iu (16 * j) hiu 16 0 mask
        (by omega) (by omega) hm
      simp only [Nat.add_zero] at hsingle
      obtain ⟨h1, h2, h3⟩ := hsingle
      dsimp only
      rw [scanRowsAux_allFalse d plane f _ (j + 1) _ h2]
      rw [h1]
      exact ⟨by simp, h2⟩
    · have hskip := scanRowAux_skip d plane j 16 0 (16 * j) mask (by omega) (by omega)
        (fun k hk => by rw [hm]; exact decide_eq_false (by omega))
      rw [hskip]
      dsimp only
      have e : 16 * j + (16 - 0) = 16 * (j + 1) := by omega
      rw [e]
      obtain ⟨h1, h2⟩ := ih (j + 1) (by omega) (by omega)
      refine ⟨?_, h2⟩
      rw [List.nil_append, h1]

/-- The sweep of one axis over a single-block occupancy: the slice hugging
the block from below (emitting at plane `pd`) and the slice through the block
(emitting at plane `pd + 1`) each contribute one `1×1` quad with normal
`unit(d)`; every other slice contributes nothing. -/
theorem sweepAux_single (d : Nat) (hd : d < 3) (px py pz : Nat)
    (hx : px ≤ 15) (hy : py ≤ 15) (hz : pz ≤ 15) :
    ∀ (fuel : Nat) (s : Int), -1 ≤ s → s ≤ 16 → fuel = (16 - s).toNat →
      sweepAux (singleOcc px py pz) d fuel s =
        (if s ≤ (pcomp d (px, py, pz) : Int) - 1 then
            [mkQuad d (pcomp d (px, py, pz)) (pcomp ((d + 1) % 3) (px, py, pz))
              (pcomp ((d + 2) % 3) (px, py, pz)) 1 1]
          else []) ++
        (if s ≤ (pcomp d (px, py, pz) : Int) then
            [mkQuad d (pcomp d (px, py, pz) + 1) (pcomp ((d + 1) % 3) (px, py, pz))
              (pcomp ((d + 2) % 3) (px, py, pz)) 1 1]
          else []) := by
  have hpd : pcomp d (px, py, pz) ≤ 15 := pcomp_le d px py pz hx hy hz
  have hpu : pcomp ((d + 1) % 3) (px, py, pz) ≤ 15 := pcomp_le _ px py pz hx hy hz
  have hpv : pcomp ((d + 2) % 3) (px, py, pz) ≤ 15 := pcomp_le _ px py pz hx hy hz
  set pd := pcomp d (px, py, pz) with hpdDef
  set pu := pcomp ((d + 1) % 3) (px, py, pz) with hpuDef
  set pv := pcomp ((d + 2) % 3) (px, py, pz) with hpvDef
  intro fuel
  induction fuel with
  | zero =>
    intro s hs1 hs2 hf
    have hs16 : s = 16 := by omega
    subst hs16
    rw [if_neg (by omega), if_neg (by omega)]
    rfl
  | succ f ih =>
    intro s hs1 hs2 hf
    have hs15 : s ≤ 15 := by omega
    rw [sweepAux]
    have hcond : s < ((CHUNK_SIZE : Nat) : Int) := by
      simp only [CHUNK_SIZE]; omega
    rw [if_pos hcond]
    by_cases hc : s = (pd : Int) - 1 ∨ s = (pd : Int)
    · have hmask : ∀ n, sliceMask (singleOcc px py pz) d s n =
          decide (n = 16 * pv + pu) := by
        intro n
        rw [sliceMask_single d hd px py pz hx hy hz s hs1 n, decide_eq_decide]
        constructor
        · rintro ⟨_, h⟩; exact h
        · intro h; exact ⟨hc, h⟩
      have hscan := scanRowsAux_single d ((s + 1).toNat) pu pv hpu hpv _ hmask 16 0
        (by omega) (by omega)
      simp only [Nat.mul_zero] at hscan
      obtain ⟨h1, _⟩ := hscan
      rw [scanRows, h1]
      rw [ih (s + 1) (by omega) (by omega) (by omega)]
      rcases hc with hc | hc
      · have hplane : (s + 1).toNat = pd := by omega
        rw [hplane]
        rw [if_pos (by omega : s ≤ (pd : Int) - 1), if_pos (by omega : s ≤ (pd : Int))]
        rw [if_neg (by omega : ¬ s + 1 ≤ (pd : Int) - 1),
            if_pos (by omega : s + 1 ≤ (pd : Int))]
        simp
      · have hplane : (s + 1).toNat = pd + 1 := by omega
        rw [hplane]
        rw [if_neg (by omega : ¬ s ≤ (pd : Int) - 1), if_pos (by omega : s ≤ (pd : Int))]
        rw [if_neg (by omega : ¬ s + 1 ≤ (pd : Int) - 1),
            if_neg (by omega : ¬ s + 1 ≤ (pd : Int))]
        simp
    · have hmask : ∀ n, sliceMask (singleOcc px py pz) d s n = false := by
        intro n
        rw [sliceMask_single d hd px py pz hx hy hz s hs1 n]
        exact decide_eq_false (by tauto)
      rw [scanRows, scanRowsAux_allFalse d ((s + 1).toNat) 16 _ 0 0 hmask]
      rw [ih (s + 1) (by omega) (by omega) (by omega)]
      dsimp only
      push_neg at hc
      obtain ⟨hc1, hc2⟩ := hc
      by_cases hle : s ≤ (pd : Int) - 1
      · rw [if_pos hle, if_pos (by omega : s ≤ (pd : Int)),
            if_pos (by omega : s + 1 ≤ (pd : Int) - 1),
            if_pos (by omega : s + 1 ≤ (pd : Int))]
        simp
      · by_cases hle2 : s ≤ (pd : Int)
        · exact absurd (by omega : s = (pd : Int)) hc2
        · rw [if_neg hle, if_neg hle2, if_neg (by omega : ¬ s + 1 ≤ (pd : Int) - 1),
              if_neg (by omega : ¬ s + 1 ≤ (pd : Int))]
          simp

/-- The greedy sweep over a single-block occupancy yields exactly six `1×1`
quads: two per axis, at the two planes hugging the block, all with the
positive axis normal. -/
theorem greedyQuads_single (px py pz : Nat)
    (hx : px ≤ 15) (hy : py ≤ 15) (hz : pz ≤ 15) :
    greedyQuads (singleOcc px py pz) =
      [ mkQuad 0 px py pz 1 1, mkQuad 0 (px + 1) py pz 1 1,
        mkQuad 1 py pz px 1 1, mkQuad 1 (py + 1) pz px 1 1,
        mkQuad 2 pz px py 1 1, mkQuad 2 (pz + 1) px py 1 1 ] := by
  unfold greedyQuads sweepAxis
  rw [sweepAux_single 0 (by omega) px py pz hx hy hz 17 (-1) (by omega) (by omega)
        (by omega),
      sweepAux_single 1 (by omega) px py pz hx hy hz 17 (-1) (by omega) (by omega)
        (by omega),
      sweepAux_single 2 (by omega) px py pz hx hy hz 17 (-1) (by omega) (by omega)
        (by omega)]
  rw [if_pos (by omega : (-1 : Int) ≤ (pcomp 0 (px, py, pz) : Int) - 1),
      if_pos (by omega : (-1 : Int) ≤ (pcomp 0 (px, py, pz) : Int)),
      if_pos (by omega : (-1 : Int) ≤ (pcomp 1 (px, py, pz) : Int) - 1),
      if_pos (by omega : (-1 : Int) ≤ (pcomp 1 (px, py, pz) : Int)),
      if_pos (by omega : (-1 : Int) ≤ (pcomp 2 (px, py, pz) : Int) - 1),
      if_pos (by omega : (-1 : Int) ≤ (pcomp 2 (px, py, pz) : Int))]
  show [mkQuad 0 (pcomp 0 (px, py, pz)) (pcomp 1 (px, py, pz)) (pcomp 2 (px, py, pz)) 1 1]
      ++ [mkQuad 0 (pcomp 0 (px, py, pz) + 1) (pcomp 1 (px, py, pz))
            (pcomp 2 (px, py, pz)) 1 1]
      ++ ([mkQuad 1 (pcomp 1 (px, py, pz)) (pcomp 2 (px, py, pz))
            (pcomp 0 (px, py, pz)) 1 1]
        ++ [mkQuad 1 (pcomp 1 (px, py, pz) + 1) (pcomp 2 (px, py, pz))
              (pcomp 0 (px, py, pz)) 1 1])
      ++ ([mkQuad 2 (pcomp 2 (px, py, pz)) (pcomp 0 (px, py, pz))
            (pcomp 1 (px, py, pz)) 1 1]
        ++ [mkQuad 2 (pcomp 2 (px, py, pz) + 1) (pcomp 0 (px, py, pz))
              (pcomp 1 (px, py, pz)) 1 1]) = _
  simp [pcomp]

/-- **C2 (amended).** For every chunk containing exactly one active block (at
in-range `(px, py, pz)`, all other slots empty), `greedy_mesh` yields exactly
6 quads (24 vertices, 36 indices) — one full unit face per side of the block,
at planes `p_d` and `p_d + 1` on each axis — and a mesh is produced; each
quad carries the sweep-direction normal `+unit(d)` of its axis (the claim's
"correct outward-facing normal" fails: −d-facing sides also get `+unit(d)`,
see the counterexample). -/
theorem single_block_six_unit_quads (c : Chunk) (px py pz : Nat) (b : Block)
    (hx : px ≤ 15) (hy : py ≤ 15) (hz : pz ≤ 15) (hb : b.is_active = true)
    (hc : c.blocks = singleBlocks px py pz b) :
    c.meshQuads =
      [ ⟨(0, 1, 0), (0, 0, 1), (px, py, pz), (1, 0, 0)⟩
      , ⟨(0, 1, 0), (0, 0, 1), ((px : Int) + 1, py, pz), (1, 0, 0)⟩
      , ⟨(0, 0, 1), (1, 0, 0), (px, py, pz), (0, 1, 0)⟩
      , ⟨(0, 0, 1), (1, 0, 0), (px, (py : Int) + 1, pz), (0, 1, 0)⟩
      , ⟨(1, 0, 0), (0, 1, 0), (px, py, pz), (0, 0, 1)⟩
      , ⟨(1, 0, 0), (0, 1, 0), (px, py, (pz : Int) + 1), (0, 0, 1)⟩ ] ∧
    c.meshVertices.length = 24 ∧ c.meshIndices.length = 36 ∧
    c.greedy_mesh.mesh.isSome = true := by
  have hq : c.meshQuads =
      [ ⟨(0, 1, 0), (0, 0, 1), (px, py, pz), (1, 0, 0)⟩
      , ⟨(0, 1, 0), (0, 0, 1), ((px : Int) + 1, py, pz), (1, 0, 0)⟩
      , ⟨(0, 0, 1), (1, 0, 0), (px, py, pz), (0, 1, 0)⟩
      , ⟨(0, 0, 1), (1, 0, 0), (px, (py : Int) + 1, pz), (0, 1, 0)⟩
      , ⟨(1, 0, 0), (0, 1, 0), (px, py, pz), (0, 0, 1)⟩
      , ⟨(1, 0, 0), (0, 1, 0), (px, py, (pz : Int) + 1), (0, 0, 1)⟩ ] := by
    unfold Chunk.meshQuads
    rw [block_active_single c px py pz b hx hy hz hb hc,
        greedyQuads_single px py pz hx hy hz]
    simp [mkQuad, axisVec, natT3]
  have hv : c.meshVertices.length = 24 := by
    unfold Chunk.meshVertices
    rw [hq]
    simp [Block.quad]
  have hi : c.meshIndices.length = 36 := by
    unfold Chunk.meshIndices
    rw [hq]
    simp [Block.quad, List.enum]
  refine ⟨hq, hv, hi, ?_⟩
  unfold Chunk.greedy_mesh
  rw [if_pos ⟨fun h => by rw [h] at hv; simp at hv,
              fun h => by rw [h] at hi; simp at hi⟩]
  rfl

/-- **C2 witness.** The claim-theorem instantiated at the chunk whose only
active block sits at the origin slot. -/
theorem single_block_six_unit_quads_witness :
    ((0 : Nat) ≤ 15 ∧ (Block.new 0).is_active = true ∧
      singleChunkW.blocks = singleBlocks 0 0 0 (Block.new 0)) ∧
    (singleChunkW.meshQuads =
      [ ⟨(0, 1, 0), (0, 0, 1), (0, 0, 0), (1, 0, 0)⟩
      , ⟨(0, 1, 0), (0, 0, 1), (1, 0, 0), (1, 0, 0)⟩
      , ⟨(0, 0, 1), (1, 0, 0), (0, 0, 0), (0, 1, 0)⟩
      , ⟨(0, 0, 1), (1, 0, 0), (0, 1, 0), (0, 1, 0)⟩
      , ⟨(1, 0, 0), (0, 1, 0), (0, 0, 0), (0, 0, 1)⟩
      , ⟨(1, 0, 0), (0, 1, 0), (0, 0, 1), (0, 0, 1)⟩ ] ∧
     singleChunkW.meshVertices.length = 24 ∧
     singleChunkW.meshIndices.length = 36 ∧
     singleChunkW.greedy_mesh.mesh.isSome = true) :=
  ⟨⟨by decide, rfl, rfl⟩,
   single_block_six_unit_quads singleChunkW 0 0 0 (Block.new 0) (by decide)
     (by decide) (by decide) rfl rfl⟩

/-- **C2 counterexample.** The chunk with a single active block at the origin
has an exposed −X face at plane `x = 0`, whose outward normal is `(-1,0,0)`;
but every quad the mesher emits carries a positive axis normal (`q[d] = 1`
regardless of which side is solid), so no quad carries the correct outward
normal for a −d-facing side: the claim "each quad carries the correct
outward-facing normal for its side" is false at this input. -/
theorem single_block_normals_not_outward :
    singleChunkW.meshQuads.length = 6 ∧
    (∀ qd ∈ singleChunkW.meshQuads,
        qd.q = (1, 0, 0) ∨ qd.q = (0, 1, 0) ∨ qd.q = (0, 0, 1)) ∧
    ¬ ∃ qd ∈ singleChunkW.meshQuads, qd.q = (-1, 0, 0) := by
  have hq : singleChunkW.meshQuads =
      [ mkQuad 0 0 0 0 1 1, mkQuad 0 (0 + 1) 0 0 1 1,
        mkQuad 1 0 0 0 1 1, mkQuad 1 (0 + 1) 0 0 1 1,
        mkQuad 2 0 0 0 1 1, mkQuad 2 (0 + 1) 0 0 1 1 ] := by
    unfold Chunk.meshQuads
    rw [block_active_single singleChunkW 0 0 0 (Block.new 0) (by omega) (by omega)
        (by omega) rfl rfl]
    exact greedyQuads_single 0 0 0 (by omega) (by omega) (by omega)
  rw [hq]
  decide

/-- `occAt` on the full occupancy tests the in-range box componentwise. -/
theorem occAt_full (d : Nat) (hd : d < 3) (sd i j : Nat) :
    occAt fullOcc d sd i j = decide (sd ≤ 15 ∧ i ≤ 15 ∧ j ≤ 15) := by
  rcases d with _ | _ | _ | d
  · simp only [occAt, axisVec, fullOcc]
  · simp only [occAt, axisVec, fullOcc]
    rw [decide_eq_decide]
    tauto
  · simp only [occAt, axisVec, fullOcc]
    rw [decide_eq_decide]
    tauto
  · exact absurd hd (by omega)

/-- The plane mask of the full occupancy: entirely set (at every in-plane
index `n < 256`) on the two boundary slices `s = -1` and `s = 15`, empty on
every interior slice. -/
theorem sliceMask_full (d : Nat) (hd : d < 3) (s : Int) (hs : -1 ≤ s) (n : Nat) :
    sliceMask fullOcc d s n = decide ((s = -1 ∨ s = 15) ∧ n < 256) := by
  unfold sliceMask maskCell
  simp only [occAt_full d hd, CHUNK_SIZE, if_decide_false, bne_decide_decide]
  rw [decide_eq_decide]
  omega

/-- The width loop runs to the end of an all-set stretch of cells. -/
theorem quadWidthAux_all (mask : Nat → Bool) (n : Nat) :
    ∀ (rem w : Nat), (∀ k, k < rem → mask (n + w + k) = true) →
      quadWidthAux mask n w rem = w + rem := by
  intro rem
  induction rem with
  | zero => intro w _; rfl
  | succ r ih =>
    intro w hm
    rw [quadWidthAux]
    have h0 : mask (n + w) = true := by simpa using hm 0 (by omega)
    rw [h0]
    simp only [if_true]
    rw [ih (w + 1) (fun k hk => by
      have h2 := hm (k + 1) (by omega)
      rwa [show n + w + (k + 1) = n + (w + 1) + k from by omega] at h2)]
    omega

/-- A row all of whose cells are set is full. -/
theorem rowFull_all (mask : Nat → Bool) (n w h : Nat)
    (hm : ∀ k, k < w → mask (n + k + h * 16) = true) : rowFull mask n w h = true := by
  unfold rowFull
  rw [List.all_eq_true]
  intro k hk
  rw [List.mem_range] at hk
  exact hm k hk

/-- The height loop runs through consecutive full rows. -/
theorem quadHeightAux_all (mask : Nat → Bool) (n w : Nat) :
    ∀ (rem h : Nat), (∀ k, k < rem → rowFull mask n w (h + k) = true) →
      quadHeightAux mask n w h rem = h + rem := by
  intro rem
  induction rem with
  | zero => intro h _; rfl
  | succ r ih =>
    intro h hm
    rw [quadHeightAux]
    have h0 : rowFull mask n w h = true := by simpa using hm 0 (by omega)
    rw [h0]
    simp only [if_true]
    rw [ih (h + 1) (fun k hk => by
      have h2 := hm (k + 1) (by omega)
      rwa [show h + (k + 1) = h + 1 + k from by omega] at h2)]
    omega

/-- Clearing the maximal 16×16 rectangle of a fully set plane mask leaves the
mask everywhere false. -/
theorem clearRect_full (mask : Nat → Bool) (hm : ∀ k, mask k = decide (k < 256)) :
    ∀ k, clearRect mask 0 16 16 k = false := by
  intro k
  unfold clearRect
  split
  · rfl
  next hnot =>
    rw [hm]
    refine decide_eq_false fun hk => ?_
    apply hnot
    rw [List.any_eq_true]
    refine ⟨k / 16, List.mem_range.mpr (by omega), ?_⟩
    rw [List.any_eq_true]
    exact ⟨k % 16, List.mem_range.mpr (by omega), decide_eq_true (by omega)⟩

/-- Scanning row 0 of a fully set plane mask emits the single maximal 16×16
quad, clears the whole mask, and ends at index 16. -/
theorem scanRow_full (d plane : Nat) (mask : Nat → Bool)
    (hm : ∀ k, mask k = decide (k < 256)) :
    scanRow mask d plane 0 0 =
      ([mkQuad d plane 0 0 16 16], clearRect mask 0 16 16, 0 + 16 + (16 - (0 + 16))) := by
  have e16 : scanRowAux d plane 0 16 mask 0 0 = scanRowAux d plane 0 (15 + 1) mask 0 0 := rfl
  rw [scanRow, e16, scanRowAux]
  rw [if_pos (by omega : (0 : Nat) < 16)]
  have hm0 : mask 0 = true := by rw [hm 0]; exact decide_eq_true (by omega)
  rw [hm0]
  simp only [if_true]
  have hw : quadWidth mask 0 0 = 16 := by
    unfold quadWidth
    rw [quadWidthAux_all mask 0 (16 - (0 + 1)) 1
      (fun k hk => by rw [hm]; exact decide_eq_true (by omega))]
  have hh : quadHeight mask 0 16 0 = 16 := by
    unfold quadHeight
    rw [quadHeightAux_all mask 0 16 (16 - (0 + 1)) 1
      (fun k hk => rowFull_all mask 0 16 (1 + k)
        (fun k2 hk2 => by rw [hm]; exact decide_eq_true (by omega)))]
  rw [hw, hh]
  have hrest := scanRowAux_skip d plane 0 15 (0 + 16) (0 + 16)
    (clearRect mask 0 16 16) (by omega) (by omega)
    (fun k hk => absurd hk (by omega))
  rw [hrest]

/-- Scanning all rows of a fully set plane mask emits exactly the maximal
16×16 quad. -/
theorem scanRows_full (d plane : Nat) (mask : Nat → Bool)
    (hm : ∀ k, mask k = decide (k < 256)) :
    (scanRows mask d plane).1 = [mkQuad d plane 0 0 16 16] := by
  have e16 : scanRowsAux d plane 16 mask 0 0 = scanRowsAux d plane (15 + 1) mask 0 0 := rfl
  rw [scanRows, e16, scanRowsAux]
  rw [if_pos (by omega : (0 : Nat) < 16)]
  rw [scanRow_full d plane mask hm]
  dsimp only
  rw [scanRowsAux_allFalse d plane 15 (clearRect mask 0 16 16) (0 + 1)
    (0 + 16 + (16 - (0 + 16))) (clearRect_full mask hm)]
  simp

/-- The sweep of one axis over the full occupancy: only the slices `s = -1`
(emitting at plane 0) and `s = 15` (emitting at plane 16) contribute, one
maximal 16×16 quad each. -/
theorem sweepAux_full (d : Nat) (hd : d < 3) :
    ∀ (fuel : Nat) (s : Int), -1 ≤ s → s ≤ 16 → fuel = (16 - s).toNat →
      sweepAux fullOcc d fuel s =
        (if s ≤ -1 then [mkQuad d 0 0 0 16 16] else []) ++
        (if s ≤ 15 then [mkQuad d 16 0 0 16 16] else []) := by
  intro fuel
  induction fuel with
  | zero =>
    intro s hs1 hs2 hf
    have hs16 : s = 16 := by omega
    subst hs16
    rw [if_neg (by omega), if_neg (by omega)]
    rfl
  | succ f ih =>
    intro s hs1 hs2 hf
    rw [sweepAux]
    have hcond : s < ((CHUNK_SIZE : Nat) : Int) := by
      simp only [CHUNK_SIZE]; omega
    rw [if_pos hcond]
    by_cases hc : s = -1 ∨ s = 15
    · have hmask : ∀ n, sliceMask fullOcc d s n = decide (n < 256) := by
        intro n
        rw [sliceMask_full d hd s hs1 n, decide_eq_decide]
        tauto
      rw [scanRows_full d ((s + 1).toNat) _ hmask]
      rw [ih (s + 1) (by omega) (by omega) (by omega)]
      rcases hc with hc | hc
      · have hplane : (s + 1).toNat = 0 := by omega
        rw [hplane]
        rw [if_pos (by omega : s ≤ (-1 : Int)), if_pos (by omega : s ≤ (15 : Int)),
            if_neg (by omega : ¬ s + 1 ≤ (-1 : Int)),
            if_pos (by omega : s + 1 ≤ (15 : Int))]
        simp
      · have hplane : (s + 1).toNat = 16 := by omega
        rw [hplane]
        rw [if_neg (by omega : ¬ s ≤ (-1 : Int)), if_pos (by omega : s ≤ (15 : Int)),
            if_neg (by omega : ¬ s + 1 ≤ (-1 : Int)),
            if_neg (by omega : ¬ s + 1 ≤ (15 : Int))]
        simp
    · have hmask : ∀ n, sliceMask fullOcc d s n = false := by
        intro n
        rw [sliceMask_full d hd s hs1 n]
        exact decide_eq_false (by tauto)
      rw [scanRows, scanRowsAux_allFalse d ((s + 1).toNat) 16 _ 0 0 hmask]
      rw [ih (s + 1) (by omega) (by omega) (by omega)]
      dsimp only
      push_neg at hc
      obtain ⟨hc1, hc2⟩ := hc
      rw [if_neg (by omega : ¬ s ≤ (-1 : Int)), if_pos (by omega : s ≤ (15 : Int)),
          if_neg (by omega : ¬ s + 1 ≤ (-1 : Int)),
          if_pos (by omega : s + 1 ≤ (15 : Int))]
      simp

/-- The greedy sweep over the full occupancy: the mask is entirely set
exactly at the two boundary slices of each axis, and the row merge collapses
each such plane to one maximal 16×16 rectangle — six quads total. -/
theorem greedyQuads_full :
    greedyQuads fullOcc =
      [ ⟨(0, 16, 0), (0, 0, 16), (0, 0, 0), (1, 0, 0)⟩
      , ⟨(0, 16, 0), (0, 0, 16), (16, 0, 0), (1, 0, 0)⟩
      , ⟨(0, 0, 16), (16, 0, 0), (0, 0, 0), (0, 1, 0)⟩
      , ⟨(0, 0, 16), (16, 0, 0), (0, 16, 0), (0, 1, 0)⟩
      , ⟨(16, 0, 0), (0, 16, 0), (0, 0, 0), (0, 0, 1)⟩
      , ⟨(16, 0, 0), (0, 16, 0), (0, 0, 16), (0, 0, 1)⟩ ] := by
  unfold greedyQuads sweepAxis
  rw [sweepAux_full 0 (by omega) 17 (-1) (by omega) (by omega) (by omega),
      sweepAux_full 1 (by omega) 17 (-1) (by omega) (by omega) (by omega),
      sweepAux_full 2 (by omega) 17 (-1) (by omega) (by omega) (by omega)]
  rw [if_pos (by omega : (-1 : Int) ≤ (-1 : Int)),
      if_pos (by omega : (-1 : Int) ≤ (15 : Int)),
      if_pos (by omega : (-1 : Int) ≤ (-1 : Int)),
      if_pos (by omega : (-1 : Int) ≤ (15 : Int)),
      if_pos (by omega : (-1 : Int) ≤ (-1 : Int)),
      if_pos (by omega : (-1 : Int) ≤ (15 : Int))]
  simp [mkQuad, axisVec, natT3]

/-- **C1.** For every chunk whose block array is fully filled with active
blocks, `greedy_mesh` produces exactly 6 quads — one per boundary plane (0
and 16 on each axis), each spanning the full 16×16 chunk face (the greedy
merge collapses each boundary plane to one maximal rectangle) — hence 24
vertices and 36 indices. -/
theorem full_chunk_six_face_quads (c : Chunk)
    (hall : ∀ i, ∃ b, c.blocks i = some b ∧ b.is_active = true) :
    c.meshQuads =
      [ ⟨(0, 16, 0), (0, 0, 16), (0, 0, 0), (1, 0, 0)⟩
      , ⟨(0, 16, 0), (0, 0, 16), (16, 0, 0), (1, 0, 0)⟩
      , ⟨(0, 0, 16), (16, 0, 0), (0, 0, 0), (0, 1, 0)⟩
      , ⟨(0, 0, 16), (16, 0, 0), (0, 16, 0), (0, 1, 0)⟩
      , ⟨(16, 0, 0), (0, 16, 0), (0, 0, 0), (0, 0, 1)⟩
      , ⟨(16, 0, 0), (0, 16, 0), (0, 0, 16), (0, 0, 1)⟩ ] ∧
    c.meshVertices.length = 24 ∧ c.meshIndices.length = 36 := by
  have hq : c.meshQuads =
      [ ⟨(0, 16, 0), (0, 0, 16), (0, 0, 0), (1, 0, 0)⟩
      , ⟨(0, 16, 0), (0, 0, 16), (16, 0, 0), (1, 0, 0)⟩
      , ⟨(0, 0, 16), (16, 0, 0), (0, 0, 0), (0, 1, 0)⟩
      , ⟨(0, 0, 16), (16, 0, 0), (0, 16, 0), (0, 1, 0)⟩
      , ⟨(16, 0, 0), (0, 16, 0), (0, 0, 0), (0, 0, 1)⟩
      , ⟨(16, 0, 0), (0, 16, 0), (0, 0, 16), (0, 0, 1)⟩ ] := by
    unfold Chunk.meshQuads
    rw [block_active_full c hall]
    exact greedyQuads_full
  refine ⟨hq, ?_, ?_⟩
  · unfold Chunk.meshVertices
    rw [hq]
    simp [Block.quad]
  · unfold Chunk.meshIndices
    rw [hq]
    simp [Block.quad, List.enum]

/-- **C1 witness.** The claim-theorem instantiated at `Chunk::full`. -/
theorem full_chunk_six_face_quads_witness :
    (∀ i, ∃ b, (Chunk.full 0 (0, 0, 0)).blocks i = some b ∧ b.is_active = true) ∧
    ((Chunk.full 0 (0, 0, 0)).meshQuads =
      [ ⟨(0, 16, 0), (0, 0, 16), (0, 0, 0), (1, 0, 0)⟩
      , ⟨(0, 16, 0), (0, 0, 16), (16, 0, 0), (1, 0, 0)⟩
      , ⟨(0, 0, 16), (16, 0, 0), (0, 0, 0), (0, 1, 0)⟩
      , ⟨(0, 0, 16), (16, 0, 0), (0, 16, 0), (0, 1, 0)⟩
      , ⟨(16, 0, 0), (0, 16, 0), (0, 0, 0), (0, 0, 1)⟩
      , ⟨(16, 0, 0), (0, 16, 0), (0, 0, 16), (0, 0, 1)⟩ ] ∧
     (Chunk.full 0 (0, 0, 0)).meshVertices.length = 24 ∧
     (Chunk.full 0 (0, 0, 0)).meshIndices.length = 36) :=
  ⟨fun _ => ⟨Block.new 0, rfl, rfl⟩,
   full_chunk_six_face_quads _ (fun _ => ⟨Block.new 0, rfl, rfl⟩)⟩

/-- `cameraChunkPos` implements the spec §4.4 sign-aware rounding rule. -/
theorem cameraChunkPos_eq_spec (cam : ℚ × ℚ × ℚ) :
    cameraChunkPos cam = specChunkCoord cam := by
  unfold cameraChunkPos specChunkCoord
  simp only [← intFloor_eq_ratFloor, ← intCeil_eq_ratCeil]
  norm_num

/-- Without a transition (stored coordinate equal to the derived one), the
streaming step only re-stores the coordinate. -/
theorem updateAt_no_transition (m : ChunkManager) (ccp : Int × Int × Int)
    (h : m.old_chunk_pos = some ccp) :
    m.updateAt ccp = { m with old_chunk_pos := some ccp } := by
  unfold ChunkManager.updateAt oldPosOf
  rw [h]
  simp

/-- Every streaming step stores the derived coordinate. -/
theorem updateAt_sets_old (m : ChunkManager) (ccp : Int × Int × Int) :
    (m.updateAt ccp).old_chunk_pos = some ccp := by
  unfold ChunkManager.updateAt
  split <;> rfl

/-- **C5.** The derived observer chunk coordinate equals the spec's
sign-aware rounding rule (`S = 16`: `floor((p + S/2)/S)` / `floor(p/S)` for
non-negative components, `ceil((p - S/2)/S)` / `ceil(p/S)` for negative
ones), and repeated derivation from the same position is stable: a second
`updateVisibility` with the same camera position finds the stored coordinate
equal to the freshly derived one and leaves the render and rebuild sets
unchanged. -/
theorem camera_chunk_coord_spec_rule (m : ChunkManager) (cam : ℚ × ℚ × ℚ) :
    cameraChunkPos cam = specChunkCoord cam ∧
    ((m.updateVisibility cam).updateVisibility cam).render
        = (m.updateVisibility cam).render ∧
    ((m.updateVisibility cam).updateVisibility cam).rebuild
        = (m.updateVisibility cam).rebuild := by
  have hold : (m.updateVisibility cam).old_chunk_pos = some (cameraChunkPos cam) :=
    updateAt_sets_old m (cameraChunkPos cam)
  refine ⟨cameraChunkPos_eq_spec cam, ?_, ?_⟩
  · show ((m.updateVisibility cam).updateAt (cameraChunkPos cam)).render = _
    rw [updateAt_no_transition _ _ hold]
  · show ((m.updateVisibility cam).updateAt (cameraChunkPos cam)).rebuild = _
    rw [updateAt_no_transition _ _ hold]

/-- Membership after a `HashSet` insert. -/
theorem mem_insertPos (s : List ChunkPosition) (p a : ChunkPosition) :
    a ∈ insertPos s p ↔ a = p ∨ a ∈ s := by
  unfold insertPos
  split
  next h =>
    constructor
    · exact fun ha => Or.inr ha
    · rintro (rfl | ha)
      · exact h
      · exact ha
  next h => simp [List.mem_cons]

/-- Membership in the two sets accumulated by the transition loop: the
rebuild accumulator gains exactly the visited existing mesh-less chunks, the
render accumulator exactly the visited existing chunks. -/
theorem foldl_visitPos_mem (chunks : List (ChunkPosition × Chunk)) (p : ChunkPosition)
    (cube : List ChunkPosition) :
    ∀ acc : List ChunkPosition × List ChunkPosition,
      (p ∈ (cube.foldl (visitPos chunks) acc).1 ↔
        p ∈ acc.1 ∨ (p ∈ cube ∧ ∃ ch, lookupPos chunks p = some ch ∧ ch.mesh = none)) ∧
      (p ∈ (cube.foldl (visitPos chunks) acc).2 ↔
        p ∈ acc.2 ∨ (p ∈ cube ∧ containsKey chunks p = true)) := by
  induction cube with
  | nil => intro acc; simp
  | cons x t ih =>
    intro acc
    rw [List.foldl_cons]
    have h1 : p ∈ (visitPos chunks acc x).1 ↔
        p ∈ acc.1 ∨ (p = x ∧ ∃ ch, lookupPos chunks p = some ch ∧ ch.mesh = none) := by
      unfold visitPos
      dsimp only
      rcases hl : lookupPos chunks x with _ | ch
      · dsimp only
        constructor
        · exact fun ha => Or.inl ha
        · rintro (ha | ⟨rfl, ch', hch', _⟩)
          · exact ha
          · rw [hl] at hch'
            cases hch'
      · dsimp only
        cases hm : ch.mesh with
        | none =>
          rw [if_pos (show (none : Option ChunkMesh).isNone = true from rfl),
              mem_insertPos]
          constructor
          · rintro (rfl | ha)
            · exact Or.inr ⟨rfl, ch, hl, hm⟩
            · exact Or.inl ha
          · rintro (ha | ⟨rfl, -⟩)
            · exact Or.inr ha
            · exact Or.inl rfl
        | some mm =>
          rw [if_neg (show ¬(some mm).isNone = true by simp)]
          constructor
          · exact fun ha => Or.inl ha
          · rintro (ha | ⟨rfl, ch', hch', hmm⟩)
            · exact ha
            · have heq : some ch = some ch' := hl.symm.trans hch'
              injection heq with he
              subst he
              cases hm.symm.trans hmm
    have h2 : p ∈ (visitPos chunks acc x).2 ↔
        p ∈ acc.2 ∨ (p = x ∧ containsKey chunks p = true) := by
      unfold visitPos
      dsimp only
      by_cases hk : containsKey chunks x = true
      · rw [if_pos hk, mem_insertPos]
        constructor
        · rintro (rfl | ha)
          · exact Or.inr ⟨rfl, hk⟩
          · exact Or.inl ha
        · rintro (ha | ⟨rfl, -⟩)
          · exact Or.inr ha
          · exact Or.inl rfl
      · rw [if_neg hk]
        constructor
        · exact fun ha => Or.inl ha
        · rintro (ha | ⟨rfl, hkk⟩)
          · exact ha
          · exact absurd hkk hk
    constructor
    · rw [(ih (visitPos chunks acc x)).1, h1, List.mem_cons]
      constructor
      · rintro ((ha | ⟨rfl, hM⟩) | ⟨ht, hM⟩)
        · exact Or.inl ha
        · exact Or.inr ⟨Or.inl rfl, hM⟩
        · exact Or.inr ⟨Or.inr ht, hM⟩
      · rintro (ha | ⟨(rfl | ht), hM⟩)
        · exact Or.inl (Or.inl ha)
        · exact Or.inl (Or.inr ⟨rfl, hM⟩)
        · exact Or.inr ⟨ht, hM⟩
    · rw [(ih (visitPos chunks acc x)).2, h2, List.mem_cons]
      constructor
      · rintro ((ha | ⟨rfl, hM⟩) | ⟨ht, hM⟩)
        · exact Or.inl ha
        · exact Or.inr ⟨Or.inl rfl, hM⟩
        · exact Or.inr ⟨Or.inr ht, hM⟩
      · rintro (ha | ⟨(rfl | ht), hM⟩)
        · exact Or.inl (Or.inl ha)
        · exact Or.inl (Or.inr ⟨rfl, hM⟩)
        · exact Or.inr ⟨ht, hM⟩

/-- Membership in the half-open integer range list. -/
theorem mem_intRange (lo hi a : Int) : a ∈ intRange lo hi ↔ lo ≤ a ∧ a < hi := by
  unfold intRange
  simp only [List.mem_map, List.mem_range]
  constructor
  · rintro ⟨k, hk, rfl⟩
    omega
  · intro h
    exact ⟨(a - lo).toNat, by omega, by omega⟩

/-- The candidate cube, by coordinate bounds: horizontal axes inclusive
within `rd`, vertical axis clamped at 0 below and capped at `cy + rd - 1`
(the upper bound of the source's `y` range is exclusive). -/
theorem mem_cubePositions (c : Int × Int × Int) (rd : Int) (p : ChunkPosition) :
    p ∈ cubePositions c rd ↔
      (c.1 - rd ≤ p.1 ∧ p.1 ≤ c.1 + rd ∧
       c.2.1 - rd ≤ p.2.1 ∧ 0 ≤ p.2.1 ∧ p.2.1 ≤ c.2.1 + rd - 1 ∧
       c.2.2 - rd ≤ p.2.2 ∧ p.2.2 ≤ c.2.2 + rd) := by
  obtain ⟨a, b, c'⟩ := p
  unfold cubePositions
  simp only [List.mem_flatMap, List.mem_map, mem_intRange, Prod.mk.injEq]
  constructor
  · rintro ⟨x, hx, y, hy, z, hz, rfl, rfl, rfl⟩
    omega
  · intro h
    exact ⟨a, by omega, b, by omega, c', by omega, rfl, rfl, rfl⟩

/-- The rebuild pass never touches the render set. -/
theorem rebuildLoop_render (l : List ChunkPosition) :
    ∀ (m : ChunkManager) (r : Nat), (rebuildLoop m l r).render = m.render := by
  induction l with
  | nil => intro m r; rfl
  | cons p t ih =>
    intro m r
    rw [rebuildLoop]
    split
    · rfl
    · split
      · exact ih _ _
      · exact ih _ _

/-- `rebuild_chunks` never touches the render set. -/
theorem rebuild_chunks_render (m : ChunkManager) :
    m.rebuild_chunks.render = m.render :=
  rebuildLoop_render m.rebuild m 0

/-- The observer at the origin derives chunk coordinate `(0,0,0)`. -/
theorem cameraChunkPos_zero : cameraChunkPos (0, 0, 0) = (0, 0, 0) := by
  rw [cameraChunkPos_eq_spec]
  unfold specChunkCoord
  norm_num

/-- **C3 (amended).** `updateVisibility` is the transition applied to the
derived coordinate; the render/rebuild recompute happens only when the
derived coordinate differs from the stored one (otherwise only the stored
coordinate is refreshed).  On a transition, a position is in the new render
set iff it is a visited cube position with an existing chunk (the old render
set is fully replaced), and in the new rebuild set iff it was already pending
or is a visited cube position whose chunk exists and has no cached mesh.  The
visited cube spans `render_dist` inclusively on the two horizontal axes, but
on the vertical axis it runs from `max(center.y - render_dist, 0)` only up to
`center.y + render_dist - 1`: the topmost layer within `render_dist` is not
visited (the source's `y` upper bound is exclusive). -/
theorem update_transition_recompute (m : ChunkManager) (cam : ℚ × ℚ × ℚ)
    (p : ChunkPosition) (ccp : Int × Int × Int) :
    (m.updateVisibility cam = m.updateAt (cameraChunkPos cam)) ∧
    (m.old_chunk_pos = some ccp →
        m.updateAt ccp = { m with old_chunk_pos := some ccp }) ∧
    (oldPosOf m ccp ≠ ccp →
      ((p ∈ (m.updateAt ccp).render ↔
          p ∈ cubePositions ccp (m.render_dist : Int) ∧ containsKey m.chunks p = true) ∧
       (p ∈ (m.updateAt ccp).rebuild ↔
          p ∈ m.rebuild ∨ (p ∈ cubePositions ccp (m.render_dist : Int) ∧
            ∃ ch, lookupPos m.chunks p = some ch ∧ ch.mesh = none)))) ∧
    (p ∈ cubePositions ccp (m.render_dist : Int) ↔
      (ccp.1 - m.render_dist ≤ p.1 ∧ p.1 ≤ ccp.1 + m.render_dist ∧
       ccp.2.1 - m.render_dist ≤ p.2.1 ∧ 0 ≤ p.2.1 ∧
       p.2.1 ≤ ccp.2.1 + m.render_dist - 1 ∧
       ccp.2.2 - m.render_dist ≤ p.2.2 ∧ p.2.2 ≤ ccp.2.2 + m.render_dist)) := by
  refine ⟨rfl, fun h => updateAt_no_transition m ccp h, fun htr => ?_,
    mem_cubePositions ccp (m.render_dist : Int) p⟩
  unfold ChunkManager.updateAt
  rw [if_pos htr]
  have hfold := foldl_visitPos_mem m.chunks p
    (cubePositions ccp (m.render_dist : Int)) (m.rebuild, ([] : List ChunkPosition))
  constructor
  · show p ∈ (List.foldl (visitPos m.chunks) (m.rebuild, [])
        (cubePositions ccp (m.render_dist : Int))).2 ↔ _
    rw [hfold.2]
    simp
  · show p ∈ (List.foldl (visitPos m.chunks) (m.rebuild, [])
        (cubePositions ccp (m.render_dist : Int))).1 ↔ _
    exact hfold.1

/-- **C3 counterexample.** A manager holding one chunk at `(0, 2, 0)` with
`render_dist = 2`: the observer at the origin derives center `(0, 0, 0)` and
`(0, 2, 0)` lies within `render_dist` of the center on every axis (and has
`y ≥ 0`), yet after the forced transition the chunk is not added to the
visible set — the cube iterated by `update` excludes the top vertical layer
`y = center.y + render_dist`, refuting "adds every existing chunk to the new
visible set" for the claim's inclusive cube. -/
theorem update_skips_top_vertical_layer :
    cameraChunkPos (0, 0, 0) = (0, 0, 0) ∧
    containsKey mC3.chunks (0, 2, 0) = true ∧
    ((0 : Int) - 0).natAbs ≤ 2 ∧ ((2 : Int) - 0).natAbs ≤ 2 ∧
    ((0 : Int) - 0).natAbs ≤ 2 ∧ (0 : Int) ≤ 2 ∧
    (0, 2, 0) ∉ (mC3.update (0, 0, 0)).render := by
  have hr : (mC3.update (0, 0, 0)).render = (mC3.updateAt (0, 0, 0)).render := by
    show (mC3.updateVisibility (0, 0, 0)).rebuild_chunks.render = _
    rw [rebuild_chunks_render]
    show (mC3.updateAt (cameraChunkPos (0, 0, 0))).render = _
    rw [cameraChunkPos_zero]
  refine ⟨cameraChunkPos_zero, by decide, by decide, by decide, by decide, by decide, ?_⟩
  rw [hr]
  decide

/-- **C3 witness.** The claim-theorem applied at concrete managers: one with
a stored coordinate equal to the derived one (no recompute), and one
mid-transition whose origin chunk enters the visible set. -/
theorem update_transition_recompute_witness :
    (mW1.old_chunk_pos = some (0, 0, 0) ∧
      mW1.updateAt (0, 0, 0) = { mW1 with old_chunk_pos := some (0, 0, 0) }) ∧
    (oldPosOf mW3 (0, 0, 0) ≠ (0, 0, 0) ∧
      (((0 : Int), 0, 0) ∈ (mW3.updateAt (0, 0, 0)).render ↔
        ((0 : Int), 0, 0) ∈ cubePositions (0, 0, 0) (mW3.render_dist : Int) ∧
          containsKey mW3.chunks ((0 : Int), 0, 0) = true)) :=
  ⟨⟨rfl, (update_transition_recompute mW1 (0, 0, 0) (0, 0, 0) (0, 0, 0)).2.1 rfl⟩,
   ⟨by decide,
    ((update_transition_recompute mW3 (0, 0, 0) ((0 : Int), 0, 0) (0, 0, 0)).2.2.1
      (by decide)).1⟩⟩

/-- Updating a key leaves other lookups unchanged. -/
theorem lookupPos_updateChunks_ne (l : List (ChunkPosition × Chunk))
    (q p : ChunkPosition) (c : Chunk) (h : p ≠ q) :
    lookupPos (updateChunks l q c) p = lookupPos l p := by
  induction l with
  | nil => rfl
  | cons kc t ih =>
    obtain ⟨k, c0⟩ := kc
    unfold updateChunks at ih ⊢
    rw [List.map_cons]
    by_cases hk : k = q
    · subst hk
      rw [if_pos rfl]
      show lookupPos ((k, c) :: _) p = _
      unfold lookupPos
      rw [if_neg (fun he => h he.symm), if_neg (fun he => h he.symm)]
      exact ih
    · rw [if_neg (by simpa using hk)]
      show lookupPos ((k, c0) :: _) p = _
      unfold lookupPos
      by_cases hkp : k = p
      · rw [if_pos hkp, if_pos hkp]
      · rw [if_neg hkp, if_neg hkp]
        exact ih

/-- Updating a key changes exactly that lookup (when present). -/
theorem lookupPos_updateChunks_self (l : List (ChunkPosition × Chunk))
    (q : ChunkPosition) (c : Chunk) :
    lookupPos (updateChunks l q c) q = (lookupPos l q).map fun _ => c := by
  induction l with
  | nil => rfl
  | cons kc t ih =>
    obtain ⟨k, c0⟩ := kc
    unfold updateChunks at ih ⊢
    rw [List.map_cons]
    by_cases hk : k = q
    · subst hk
      rw [if_pos rfl]
      show lookupPos ((k, c) :: _) k = _
      unfold lookupPos
      rw [if_pos rfl, if_pos rfl]
      rfl
    · rw [if_neg (by simpa using hk)]
      show lookupPos ((k, c0) :: _) q = _
      unfold lookupPos
      rw [if_neg hk, if_neg hk]
      exact ih

/-- The rebuild loop only ever removes pending positions. -/
theorem rebuildLoop_rebuild_subset (l : List ChunkPosition) :
    ∀ (m : ChunkManager) (r : Nat), (rebuildLoop m l r).rebuild ⊆ m.rebuild := by
  induction l with
  | nil => intro m r a ha; exact ha
  | cons p t ih =>
    intro m r
    rw [rebuildLoop]
    split
    · exact fun a ha => ha
    · split
      · intro a ha
        exact List.erase_subset _ _ (ih _ _ ha)
      · intro a ha
        exact List.erase_subset _ _ (ih _ _ ha)

/-- The rebuild loop never grows the pending set. -/
theorem rebuildLoop_rebuild_length_le (l : List ChunkPosition) :
    ∀ (m : ChunkManager) (r : Nat),
      (rebuildLoop m l r).rebuild.length ≤ m.rebuild.length := by
  induction l with
  | nil => intro m r; exact Nat.le_refl _
  | cons p t ih =>
    intro m r
    rw [rebuildLoop]
    split
    · exact Nat.le_refl _
    · split
      · exact Nat.le_trans (ih _ _) (List.Sublist.length_le (List.erase_sublist _ _))
      · exact Nat.le_trans (ih _ _) (List.Sublist.length_le (List.erase_sublist _ _))

/-- At most `MAX_REBUILD_FRAME - r` chunks are remeshed by the loop: the
changed positions form a sublist `S` of the processed list; every chunk
outside `S` is untouched, every chunk at a position of `S` is replaced by its
`greedy_mesh`. -/
theorem rebuildLoop_remesh_cap (l : List ChunkPosition) :
    ∀ (m : ChunkManager) (r : Nat), l.Nodup →
      ∃ S : List ChunkPosition, S ⊆ l ∧ S.length ≤ MAX_REBUILD_FRAME - r ∧
        (∀ p, p ∉ S → lookupPos (rebuildLoop m l r).chunks p = lookupPos m.chunks p) ∧
        (∀ p ∈ S, lookupPos (rebuildLoop m l r).chunks p =
            (lookupPos m.chunks p).map Chunk.greedy_mesh) := by
  induction l with
  | nil =>
    intro m r _
    exact ⟨[], by simp, by simp, fun p _ => rfl, by simp⟩
  | cons q t ih =>
    intro m r hnd
    rw [rebuildLoop]
    by_cases hr : r ≥ MAX_REBUILD_FRAME
    · rw [if_pos hr]
      exact ⟨[], by simp, by simp, fun p _ => rfl, by simp⟩
    · rw [if_neg hr]
      have hndt := (List.nodup_cons.mp hnd).2
      have hqt : q ∉ t := (List.nodup_cons.mp hnd).1
      rcases hl : lookupPos m.chunks q with _ | ch
      · obtain ⟨S, hsub, hlen, hout, hin⟩ := ih _ r hndt
        refine ⟨S, fun a ha => List.mem_cons_of_mem _ (hsub ha), hlen, ?_, ?_⟩
        · intro p hp
          exact hout p hp
        · intro p hp
          exact hin p hp
      · obtain ⟨S, hsub, hlen, hout, hin⟩ := ih
          { m with chunks := updateChunks m.chunks q ch.greedy_mesh
                 , rebuild := removePos m.rebuild q } (r + 1) hndt
        refine ⟨q :: S, ?_, ?_, ?_, ?_⟩
        · intro a ha
          rcases List.mem_cons.mp ha with rfl | h
          · exact List.mem_cons_self _ _
          · exact List.mem_cons_of_mem _ (hsub h)
        · simp only [List.length_cons, MAX_REBUILD_FRAME] at *
          omega
        · intro p hp
          rw [List.mem_cons] at hp
          push_neg at hp
          obtain ⟨hpq, hpS⟩ := hp
          rw [hout p hpS]
          show lookupPos (updateChunks m.chunks q ch.greedy_mesh) p = _
          exact lookupPos_updateChunks_ne m.chunks q p ch.greedy_mesh hpq
        · intro p hp
          rcases List.mem_cons.mp hp with rfl | hpS
          · have hpS : p ∉ S := fun hc => hqt (hsub hc)
            rw [hout p hpS]
            show lookupPos (updateChunks m.chunks p ch.greedy_mesh) p = _
            rw [lookupPos_updateChunks_self m.chunks p ch.greedy_mesh, hl]
            rfl
          · have hpq : p ≠ q := fun he => hqt (he ▸ hsub hpS)
            rw [hin p hpS]
            show ((lookupPos (updateChunks m.chunks q ch.greedy_mesh) p).map
              Chunk.greedy_mesh) = _
            rw [lookupPos_updateChunks_ne m.chunks q p ch.greedy_mesh hpq]

/-- One loop pass over a non-empty clone removes at least the head. -/
theorem rebuildLoop_cons_removes (m : ChunkManager) (p : ChunkPosition)
    (t : List ChunkPosition) :
    (rebuildLoop m (p :: t) 0).rebuild.length ≤ (m.rebuild.erase p).length := by
  rw [rebuildLoop]
  rw [if_neg (by simp [MAX_REBUILD_FRAME])]
  split
  · exact rebuildLoop_rebuild_length_le t _ _
  · exact rebuildLoop_rebuild_length_le t _ _

/-- A non-empty pending set strictly shrinks in one `rebuild_chunks` call. -/
theorem rebuild_chunks_shrinks (m : ChunkManager) (hne : m.rebuild ≠ []) :
    m.rebuild_chunks.rebuild.length < m.rebuild.length := by
  obtain ⟨p, t, hpt⟩ := List.exists_cons_of_ne_nil hne
  have hm : p ∈ m.rebuild := by rw [hpt]; exact List.mem_cons_self p t
  have he : (m.rebuild.erase p).length = m.rebuild.length - 1 :=
    List.length_erase_of_mem hm
  have hlen : 0 < m.rebuild.length := by rw [hpt]; exact Nat.succ_pos _
  have hstep := rebuildLoop_cons_removes m p t
  rw [← hpt] at hstep
  show (rebuildLoop m m.rebuild 0).rebuild.length < m.rebuild.length
  omega

/-- Iterating `rebuild_chunks` at least `|rebuild|` times empties the set. -/
theorem iterateRebuild_drains (n : Nat) :
    ∀ m : ChunkManager, m.rebuild.length ≤ n → (iterateRebuild n m).rebuild = [] := by
  induction n with
  | zero =>
    intro m h
    exact List.eq_nil_of_length_eq_zero (Nat.le_zero.mp h)
  | succ n ih =>
    intro m h
    rw [iterateRebuild]
    by_cases hne : m.rebuild = []
    · have hz : m.rebuild_chunks.rebuild = [] := by
        unfold ChunkManager.rebuild_chunks
        rw [hne]
        exact hne
      exact ih _ (by rw [hz]; exact Nat.zero_le _)
    · have := rebuild_chunks_shrinks m hne
      exact ih _ (by omega)

/-- **C4 (amended).** `rebuild_chunks` only removes pending entries; at most
`MAX_REBUILD_FRAME` (2) of the removed entries have a registered chunk, and
each such chunk is remeshed via `greedy_mesh` and its position removed
whether or not meshing produced a mesh — but entries whose position has no
registered chunk are also removed, without counting toward the cap (so one
call can remove more than 2 entries, see the counterexample); repeated calls
eventually drain an arbitrarily large rebuild set to empty. -/
theorem rebuild_cap_and_drain (m : ChunkManager) (n : Nat) :
    m.rebuild_chunks.rebuild ⊆ m.rebuild ∧
    (m.rebuild.Nodup →
      ∃ S : List ChunkPosition, S ⊆ m.rebuild ∧ S.length ≤ MAX_REBUILD_FRAME ∧
        (∀ p, p ∉ S → lookupPos m.rebuild_chunks.chunks p = lookupPos m.chunks p) ∧
        (∀ p ∈ S, lookupPos m.rebuild_chunks.chunks p =
            (lookupPos m.chunks p).map Chunk.greedy_mesh)) ∧
    (m.rebuild ≠ [] → m.rebuild_chunks.rebuild.length < m.rebuild.length) ∧
    (m.rebuild.length ≤ n → (iterateRebuild n m).rebuild = []) := by
  refine ⟨rebuildLoop_rebuild_subset m.rebuild m 0, fun hnd => ?_,
    fun hne => rebuild_chunks_shrinks m hne, fun hn => iterateRebuild_drains n m hn⟩
  obtain ⟨S, hsub, hlen, hout, hin⟩ := rebuildLoop_remesh_cap m.rebuild m 0 hnd
  exact ⟨S, hsub, by simpa using hlen, hout, hin⟩

/-- **C4 counterexample.** A manager with three pending positions but no
registered chunks: a single `rebuild_chunks` call removes all three entries —
more than `MAX_REBUILD_FRAME = 2` — refuting "removes at most
MAX_REBUILD_FRAME (2) entries from the rebuild set regardless of the set's
size". -/
theorem rebuild_removes_more_than_cap :
    MAX_REBUILD_FRAME = 2 ∧ mC4.rebuild.length = 3 ∧
    mC4.rebuild_chunks.rebuild = [] := by
  decide

/-- **C4 witness.** The claim-theorem applied to a manager with three pending
positions, all with registered chunks, iterated three times. -/
theorem rebuild_cap_and_drain_witness :
    (mW4.rebuild.Nodup ∧ mW4.rebuild ≠ [] ∧ mW4.rebuild.length ≤ 3) ∧
    mW4.rebuild_chunks.rebuild ⊆ mW4.rebuild ∧
    (∃ S : List ChunkPosition, S ⊆ mW4.rebuild ∧ S.length ≤ MAX_REBUILD_FRAME ∧
      (∀ p, p ∉ S → lookupPos mW4.rebuild_chunks.chunks p = lookupPos mW4.chunks p) ∧
      (∀ p ∈ S, lookupPos mW4.rebuild_chunks.chunks p =
          (lookupPos mW4.chunks p).map Chunk.greedy_mesh)) ∧
    mW4.rebuild_chunks.rebuild.length < mW4.rebuild.length ∧
    (iterateRebuild 3 mW4).rebuild = [] :=
  ⟨⟨by decide, by decide, by decide⟩,
   (rebuild_cap_and_drain mW4 3).1,
   (rebuild_cap_and_drain mW4 3).2.1 (by decide),
   (rebuild_cap_and_drain mW4 3).2.2.1 (by decide),
   (rebuild_cap_and_drain mW4 3).2.2.2 (by decide)⟩

/-- **C6 witness.** The claim-theorem applied to an empty chunk: an
out-of-range insert is a no-op; an in-range insert fills the empty slot and a
second insert at the same position leaves the first block in place. -/
theorem insert_block_first_write_wins_witness :
    (¬((20 : Nat) ≤ CHUNK_SIZE - 1 ∧ (0 : Nat) ≤ CHUNK_SIZE - 1 ∧
        (0 : Nat) ≤ CHUNK_SIZE - 1) ∧
      (Chunk.new 0 (0, 0, 0)).insert_block (Block.new 5) 20 0 0 = Chunk.new 0 (0, 0, 0)) ∧
    ((1 : Nat) ≤ CHUNK_SIZE - 1 ∧ (2 : Nat) ≤ CHUNK_SIZE - 1 ∧
      (3 : Nat) ≤ CHUNK_SIZE - 1) ∧
    ((Chunk.new 0 (0, 0, 0)).blocks ⟨(1 * CHUNK_SIZE + 2) * CHUNK_SIZE + 3,
        idx_lt (by decide)⟩ = none) ∧
    (((Chunk.new 0 (0, 0, 0)).insert_block (Block.new 5) 1 2 3).blocks
        ⟨(1 * CHUNK_SIZE + 2) * CHUNK_SIZE + 3, idx_lt (by decide)⟩ =
      some (Block.new 5)) ∧
    ((((Chunk.new 0 (0, 0, 0)).insert_block (Block.new 5) 1 2 3).insert_block
        (Block.new 9) 1 2 3).blocks
        ⟨(1 * CHUNK_SIZE + 2) * CHUNK_SIZE + 3, idx_lt (by decide)⟩ =
      some (Block.new 5)) := by
  have h := insert_block_first_write_wins (Chunk.new 0 (0, 0, 0)) (Block.new 5)
    (Block.new 9) 1 2 3
  have hout := insert_block_first_write_wins (Chunk.new 0 (0, 0, 0)) (Block.new 5)
    (Block.new 9) 20 0 0
  have hr : (1 : Nat) ≤ CHUNK_SIZE - 1 ∧ (2 : Nat) ≤ CHUNK_SIZE - 1 ∧
      (3 : Nat) ≤ CHUNK_SIZE - 1 := by decide
  refine ⟨⟨by decide, hout.1 (by decide)⟩, hr, rfl, ?_, ?_⟩
  · exact ((h.2 hr).2 rfl).1
  · exact ((h.2 hr).2 rfl).2

/-- **C7 witness.** The claim-theorem applied to a full chunk: coordinate 16
is silently rejected by all three operations, and an in-range query reads the
slot. -/
theorem block_ops_out_of_range_safe_witness :
    ((16 : Nat) ≤ 16 ∨ (16 : Nat) ≤ 0 ∨ (16 : Nat) ≤ 0) ∧
    ((Chunk.full 0 (0, 0, 0)).insert_block (Block.new 5) 16 0 0 = Chunk.full 0 (0, 0, 0) ∧
     (Chunk.full 0 (0, 0, 0)).remove_block 16 0 0 = Chunk.full 0 (0, 0, 0) ∧
     (Chunk.full 0 (0, 0, 0)).block_active 16 0 0 = false) ∧
    ((0 : Nat) ≤ CHUNK_SIZE - 1 ∧ (0 : Nat) ≤ CHUNK_SIZE - 1 ∧
      (0 : Nat) ≤ CHUNK_SIZE - 1) ∧
    ((Chunk.full 0 (0, 0, 0)).block_active 0 0 0 =
      match (Chunk.full 0 (0, 0, 0)).blocks ⟨(0 * CHUNK_SIZE + 0) * CHUNK_SIZE + 0,
          idx_lt (by decide)⟩ with
      | some bl => bl.is_active
      | none => false) :=
  ⟨Or.inl (by decide),
   (block_ops_out_of_range_safe (Chunk.full 0 (0, 0, 0)) (Block.new 5) 16 0 0).1
     (Or.inl (by decide)),
   by decide,
   (block_ops_out_of_range_safe (Chunk.full 0 (0, 0, 0)) (Block.new 5) 0 0 0).2
     (by decide)⟩

/-- **C9 witness.** The claim-theorem applied to a manager already holding a
chunk at the origin: re-registration is a no-op and key uniqueness survives a
sequence of `add_chunk` calls with a duplicate in it. -/
theorem add_chunk_first_registration_wins_witness :
    (containsKey mW1.chunks (Chunk.new 7 (0, 0, 0)).position = true ∧
      mW1.add_chunk (Chunk.new 7 (0, 0, 0)) = mW1) ∧
    ((mW1.chunks.map Prod.fst).Nodup ∧
      ((addChunks mW1 [Chunk.new 7 (0, 0, 0), Chunk.new 8 (1, 1, 1)]).chunks.map
        Prod.fst).Nodup) :=
  ⟨⟨by decide,
    (add_chunk_first_registration_wins mW1 (Chunk.new 7 (0, 0, 0)) []).1 (by decide)⟩,
   ⟨by decide,
    (add_chunk_first_registration_wins mW1 (Chunk.new 7 (0, 0, 0))
      [Chunk.new 7 (0, 0, 0), Chunk.new 8 (1, 1, 1)]).2 (by decide)⟩⟩
